import Mathlib

/-!
# Verification of the navigation-system repository

Shallow embedding of the repository's three modules:

* `arvore_avl.py`   — AVL tree (`AVLNode`, `AVLTree`): insert / remove / search
  with automatic rebalancing via single and double rotations.
* `arvore_binaria.py` — plain BST (`BSTNode`, `BinarySearchTree`) plus the
  Day–Stout–Warren (DSW) balancing transform (`_tree_to_vine`, `_compress`,
  `dsw_balance`).
* `grafo.py`        — adjacency-list graph (`Graph`) with `add_vertex`,
  `add_edge`, `vertices`, and `dijkstra`.

Python `None`/truthiness conventions that the code branches on are modelled
explicitly by `PyData`.  Fallible code (the unguarded `next_child.left`
dereference in `_compress`) is modelled in `Option`: `none` means the Python
code raises an exception at that point.
-/

set_option maxHeartbeats 1000000

namespace Nav

/-! ### Definitions -/

/-- Model of the Python values stored in a node's `data` slot.
`pyNone` is Python `None`; `freshGraph` is the `{'graph': Graph()}` dict the
AVL insert creates by default (truthy); `value b i` is any other payload with
truthiness `b` and identity `i` (e.g. `value false 0` is an empty dict). -/
inductive PyData where
  | pyNone : PyData
  | freshGraph : PyData
  | value (truthy : Bool) (ident : Nat) : PyData
deriving DecidableEq, Repr

/-- Python truthiness of a `data` value (`bool(data)`). -/
def PyData.isTruthy : PyData → Bool
  | .pyNone => false
  | .freshGraph => true
  | .value b _ => b

/-! ## AVL trees (`arvore_avl.py`)

A tree is either empty (`Python None`) or an `AVLNode` with key, name, data,
children and the *stored* `height` field.  `AVLTree` itself is just a root
pointer, so we work directly with the (sub)tree type. -/
inductive AVL where
  | leaf : AVL
  | node (l : AVL) (key : Int) (name : String) (data : PyData) (h : Nat) (r : AVL)
deriving DecidableEq, Repr
namespace AVL

/-- `AVLTree._height`: the stored height field, `0` for `None`. -/
def sheight : AVL → Nat
  | .leaf => 0
  | .node _ _ _ _ h _ => h

/-- The mathematical height used by the spec:
`height(empty) = 0`, `height(node) = 1 + max (height l) (height r)`. -/
def height : AVL → Nat
  | .leaf => 0
  | .node l _ _ _ _ r => 1 + max (height l) (height r)

/-- `AVLTree._balance_factor` computed from the stored heights
(`_height(node.left) - _height(node.right)`); `0` on the empty tree, where
the Python method is never called. -/
def bfac : AVL → Int
  | .leaf => 0
  | .node l _ _ _ _ r => (sheight l : Int) - (sheight r : Int)

/-- `AVLTree._rotate_right` followed by the two `_update_height` calls.
On a tree whose left child is `None` the Python code would raise
(`x.right` with `x = None`); that case is unreachable at every call site
below and is mapped to the identity. -/
def rotateRight : AVL → AVL
  | .node (.node ll lk ln ld _ lr) k n d _ r =>
      .node ll lk ln ld
        (1 + max (sheight ll) (sheight (.node lr k n d (1 + max (sheight lr) (sheight r)) r)))
        (.node lr k n d (1 + max (sheight lr) (sheight r)) r)
  | t => t

/-- `AVLTree._rotate_left` followed by the two `_update_height` calls.
Mirror image of `rotateRight`; degenerate cases are likewise unreachable. -/
def rotateLeft : AVL → AVL
  | .node l k n d _ (.node rl rk rn rd _ rr) =>
      .node (.node l k n d (1 + max (sheight l) (sheight rl)) rl) rk rn rd
        (1 + max (sheight (.node l k n d (1 + max (sheight l) (sheight rl)) rl)) (sheight rr))
        rr
  | t => t

/-- `AVLTree._rebalance`: update the node's height, then dispatch on the
balance factor exactly as the Python code does. -/
def rebalance : AVL → AVL
  | .leaf => .leaf
  | .node l k n d _ r =>
      let t : AVL := .node l k n d (1 + max (sheight l) (sheight r)) r
      let b : Int := (sheight l : Int) - (sheight r : Int)
      if 1 < b then
        if bfac l < 0 then rotateRight (.node (rotateLeft l) k n d (1 + max (sheight l) (sheight r)) r)
        else rotateRight t
      else if b < -1 then
        if 0 < bfac r then rotateLeft (.node l k n d (1 + max (sheight l) (sheight r)) (rotateRight r))
        else rotateLeft t
      else t

/-- The inner `_insert` of `AVLTree.insert`.  On a missing key a fresh node
(with a `{'graph': Graph()}` payload when `data is None`) is created; on an
existing key name is overwritten, data only if truthy (`data or node.data`),
and no rebalance happens on that branch; otherwise the child is replaced and
the node rebalanced. -/
def insert (k : Int) (nm : String) (d : PyData) : AVL → AVL
  | .leaf =>
      .node .leaf k nm (if d = .pyNone then .freshGraph else d) 1 .leaf
  | .node l k0 n0 d0 h0 r =>
      if k < k0 then rebalance (.node (insert k nm d l) k0 n0 d0 h0 r)
      else if k0 < k then rebalance (.node l k0 n0 d0 h0 (insert k nm d r))
      else .node l k0 nm (if d.isTruthy then d else d0) h0 r

/-- `AVLTree._min_node`: leftmost node's `(key, name, data)`.  Only called on
non-empty subtrees in the Python code; the `leaf` result is junk. -/
def minNode : AVL → Int × String × PyData
  | .leaf => (0, "", .pyNone)
  | .node .leaf k n d _ _ => (k, n, d)
  | .node (.node ll lk ln ld lh lr) _ _ _ _ _ => minNode (.node ll lk ln ld lh lr)

/-- The inner `_remove` of `AVLTree.remove`. -/
def remove (k : Int) : AVL → AVL
  | .leaf => .leaf
  | .node l k0 n0 d0 h0 r =>
      if k < k0 then rebalance (.node (remove k l) k0 n0 d0 h0 r)
      else if k0 < k then rebalance (.node l k0 n0 d0 h0 (remove k r))
      else
        match l, r with
        | .leaf, _ => r
        | .node a b c dd e f, .leaf => .node a b c dd e f
        | .node a b c dd e f, .node a' b' c' d' e' f' =>
            let s := minNode (.node a' b' c' d' e' f')
            rebalance (.node (.node a b c dd e f) s.1 s.2.1 s.2.2 h0
              (remove s.1 (.node a' b' c' d' e' f')))

/-- In-order key sequence of the AVL tree (`AVLTree.inorder`, keys only). -/
def inorderKeys : AVL → List Int
  | .leaf => []
  | .node l k _ _ _ r => inorderKeys l ++ k :: inorderKeys r

/-- Does the tree contain key `k` (anywhere)? -/
def hasKey (k : Int) : AVL → Bool
  | .leaf => false
  | .node l k0 _ _ _ r => k = k0 || hasKey k l || hasKey k r

/-- `data` field of the node reached by binary search for `k`
(`AVLTree.search(k).data`). -/
def getData (k : Int) : AVL → Option PyData
  | .leaf => none
  | .node l k0 _ d0 _ r =>
      if k < k0 then getData k l
      else if k0 < k then getData k r
      else some d0
end AVL

/-! ## Plain BSTs (`arvore_binaria.py`) -/
inductive BST where
  | leaf : BST
  | node (l : BST) (key : Int) (name : String) (data : PyData) (r : BST)
deriving DecidableEq, Repr
namespace BST

/-- Number of nodes (what `dsw_balance` counts with its `_count` closure). -/
def size : BST → Nat
  | .leaf => 0
  | .node l _ _ _ r => 1 + size l + size r

/-- Spec height: `height(empty) = 0`, `height(node) = 1 + max`. -/
def height : BST → Nat
  | .leaf => 0
  | .node l _ _ _ r => 1 + max (height l) (height r)

/-- The inner `_insert` of `BinarySearchTree.insert`: on an existing key both
`name` and `data` are overwritten unconditionally. -/
def insert (k : Int) (nm : String) (d : PyData) : BST → BST
  | .leaf => .node .leaf k nm d .leaf
  | .node l k0 n0 d0 r =>
      if k < k0 then .node (insert k nm d l) k0 n0 d0 r
      else if k0 < k then .node l k0 n0 d0 (insert k nm d r)
      else .node l k0 nm d r

/-- `BinarySearchTree._min_node` data, as for the AVL tree. -/
def minNode : BST → Int × String × PyData
  | .leaf => (0, "", .pyNone)
  | .node .leaf k n d _ => (k, n, d)
  | .node (.node ll lk ln ld lr) _ _ _ _ => minNode (.node ll lk ln ld lr)

/-- The inner `_remove` of `BinarySearchTree.remove` (no rebalancing). -/
def remove (k : Int) : BST → BST
  | .leaf => .leaf
  | .node l k0 n0 d0 r =>
      if k < k0 then .node (remove k l) k0 n0 d0 r
      else if k0 < k then .node l k0 n0 d0 (remove k r)
      else
        match l, r with
        | .leaf, _ => r
        | .node a b c dd f, .leaf => .node a b c dd f
        | .node a b c dd f, .node a' b' c' d' f' =>
            let s := minNode (.node a' b' c' d' f')
            .node (.node a b c dd f) s.1 s.2.1 s.2.2 (remove s.1 (.node a' b' c' d' f'))

/-- In-order key sequence (`BinarySearchTree.inorder`, keys only). -/
def inorderKeys : BST → List Int
  | .leaf => []
  | .node l k _ _ r => inorderKeys l ++ k :: inorderKeys r

/-- Does the tree contain key `k` (anywhere)? -/
def hasKey (k : Int) : BST → Bool
  | .leaf => false
  | .node l k0 _ _ r => k = k0 || hasKey k l || hasKey k r

/-- `data` field of the node found by `BinarySearchTree.search(k)`. -/
def getData (k : Int) : BST → Option PyData
  | .leaf => none
  | .node l k0 _ d0 r =>
      if k < k0 then getData k l
      else if k0 < k then getData k r
      else some d0

/-- Size of the left child; used only as a termination measure for
`toVine` (each right rotation strictly shrinks the leading node's left
subtree, each advance strictly shrinks the remaining tree). -/
def lsize : BST → Nat
  | .leaf => 0
  | .node l _ _ _ _ => size l

/-- `BinarySearchTree._tree_to_vine`: repeatedly right-rotate the leading
node while it has a left child, otherwise emit it on the vine and advance.
The Python loop threads `tail`/`rest` pointers through a pseudo-root; the
processed prefix is exactly the chain of emitted nodes. -/
def toVine : BST → BST
  | .leaf => .leaf
  | .node .leaf k n d r => .node .leaf k n d (toVine r)
  | .node (.node ll lk ln ld lr) k n d r =>
      toVine (.node ll lk ln ld (.node lr k n d r))
termination_by t => (size t, lsize t)
decreasing_by
  · simp only [size, lsize, Prod.lex_def]
    omega
  · simp only [size, lsize, Prod.lex_def]
    omega

/-- `BinarySearchTree._compress(count)`: `count` consecutive left rotations
down the right spine, anchored at a pseudo-root.  `scanner.right is None`
breaks out of the loop, but a present `child` whose `right` is `None` makes
the Python code dereference `next_child.left` with `next_child = None`:
that `AttributeError` is modelled by `none`. -/
def compress : Nat → BST → Option BST
  | 0, t => some t
  | _ + 1, .leaf => some .leaf
  | c + 1, .node cl ck cn cd cr =>
      match cr with
      | .leaf => none
      | .node nl nk nn nd nr =>
          (compress c nr).map fun nr' => .node (.node cl ck cn cd nl) nk nn nd nr'

/-- The `while m <= n: m = m << 1` loop of `dsw_balance`, started at `m = 1`.
A start value of `0` would loop forever in Python; the loop is only ever
entered with `m = 1`, and that case is mapped to `0`. -/
def mgrow (n : Nat) (m : Nat) : Nat :=
  if h : m = 0 then 0
  else if h' : m ≤ n then mgrow n (2 * m) else m
termination_by n + 1 - m
decreasing_by omega

/-- The `while m > 1: m = m >> 1; self._compress(m)` loop of `dsw_balance`. -/
def compressLoop (m : Nat) (t : BST) : Option BST :=
  if h : 1 < m then (compress (m / 2) t).bind (compressLoop (m / 2)) else some t
termination_by m
decreasing_by omega

/-- `BinarySearchTree.dsw_balance`: count nodes, return unchanged when
`n <= 1`, otherwise build the vine, compute
`m = ((smallest power of two > n) >> 1) - 1`, compress `n - m` times and
then repeatedly halve.  `none` reports the `AttributeError` raised inside
`_compress`. -/
def dswBalance (t : BST) : Option BST :=
  let n := size t
  if n ≤ 1 then some t
  else
    let m := mgrow n 1 / 2 - 1
    (compress (n - m) (toVine t)).bind (compressLoop m)
end BST
namespace AVL

/-- Every key in the tree satisfies `p`. -/
def allKeys (p : Int → Prop) : AVL → Prop
  | .leaf => True
  | .node l k _ _ _ r => allKeys p l ∧ p k ∧ allKeys p r

/-- BST order invariant: at every node all left keys are strictly smaller
and all right keys strictly larger than the node's key. -/
def Ordered : AVL → Prop
  | .leaf => True
  | .node l k _ _ _ r =>
      Ordered l ∧ Ordered r ∧ allKeys (· < k) l ∧ allKeys (k < ·) r

/-- The stored `height` fields agree with the recursive height computation. -/
def Hok : AVL → Prop
  | .leaf => True
  | .node l _ _ _ h r => Hok l ∧ Hok r ∧ h = 1 + max (sheight l) (sheight r)

/-- AVL balance invariant, in terms of stored heights. -/
def BalS : AVL → Prop
  | .leaf => True
  | .node l _ _ _ _ r =>
      BalS l ∧ BalS r ∧ sheight l ≤ sheight r + 1 ∧ sheight r ≤ sheight l + 1

/-- AVL balance invariant exactly as the spec states it, via the recursive
height: `|height(left) − height(right)| ≤ 1` at every node. -/
def Balanced : AVL → Prop
  | .leaf => True
  | .node l _ _ _ _ r =>
      Balanced l ∧ Balanced r ∧
        |(height l : Int) - (height r : Int)| ≤ 1

def decAllKeys (p : Int → Prop) [DecidablePred p] : (t : AVL) → Decidable (allKeys p t)
  | .leaf => .isTrue trivial
  | .node l k _ _ _ r =>
      haveI := decAllKeys p l
      haveI := decAllKeys p r
      inferInstanceAs (Decidable (allKeys p l ∧ p k ∧ allKeys p r))

instance (p : Int → Prop) [DecidablePred p] (t : AVL) : Decidable (allKeys p t) :=
  decAllKeys p t

def decOrdered : (t : AVL) → Decidable (Ordered t)
  | .leaf => .isTrue trivial
  | .node l k _ _ _ r =>
      haveI := decOrdered l
      haveI := decOrdered r
      inferInstanceAs (Decidable (Ordered l ∧ Ordered r ∧ _ ∧ _))

instance (t : AVL) : Decidable (Ordered t) := decOrdered t

def decHok : (t : AVL) → Decidable (Hok t)
  | .leaf => .isTrue trivial
  | .node l _ _ _ h r =>
      haveI := decHok l
      haveI := decHok r
      inferInstanceAs (Decidable (Hok l ∧ Hok r ∧ h = 1 + max (sheight l) (sheight r)))

instance (t : AVL) : Decidable (Hok t) := decHok t

def decBalS : (t : AVL) → Decidable (BalS t)
  | .leaf => .isTrue trivial
  | .node l _ _ _ _ r =>
      haveI := decBalS l
      haveI := decBalS r
      inferInstanceAs (Decidable (BalS l ∧ BalS r ∧ _ ∧ _))

instance (t : AVL) : Decidable (BalS t) := decBalS t
end AVL
namespace BST

/-! ## Structural invariants of the plain BST -/
def allKeys (p : Int → Prop) : BST → Prop
  | .leaf => True
  | .node l k _ _ r => allKeys p l ∧ p k ∧ allKeys p r

def Ordered : BST → Prop
  | .leaf => True
  | .node l k _ _ r =>
      Ordered l ∧ Ordered r ∧ allKeys (· < k) l ∧ allKeys (k < ·) r

def decAllKeys (p : Int → Prop) [DecidablePred p] : (t : BST) → Decidable (allKeys p t)
  | .leaf => .isTrue trivial
  | .node l k _ _ r =>
      haveI := decAllKeys p l
      haveI := decAllKeys p r
      inferInstanceAs (Decidable (allKeys p l ∧ p k ∧ allKeys p r))

instance (p : Int → Prop) [DecidablePred p] (t : BST) : Decidable (allKeys p t) :=
  decAllKeys p t

def decOrdered : (t : BST) → Decidable (Ordered t)
  | .leaf => .isTrue trivial
  | .node l k _ _ r =>
      haveI := decOrdered l
      haveI := decOrdered r
      inferInstanceAs (Decidable (Ordered l ∧ Ordered r ∧ _ ∧ _))

instance (t : BST) : Decidable (Ordered t) := decOrdered t
end BST

/-! ## Adjacency-list graph (`grafo.py`)

`self.adj` is a `defaultdict(list)` mapping vertex ids to lists of
`(neighbour, weight)` pairs; Python dicts preserve insertion order, so the
dict is modelled as an association list with new keys appended at the end.
Vertex ids are modelled as naturals, weights as rationals. -/
structure Graph where
  adj : List (Nat × List (Nat × ℚ))
  directed : Bool
deriving DecidableEq, Repr
namespace Graph

/-- `u in self.adj` (a plain membership test, no defaultdict side effect). -/
def hasVertex (u : Nat) (adj : List (Nat × List (Nat × ℚ))) : Bool :=
  adj.any fun e => e.1 = u

/-- Reading `self.adj[u]`: the entry of `u`, or `[]` when `u` is missing
(the defaultdict conjures an empty list in that case). -/
def findAdj (u : Nat) : List (Nat × List (Nat × ℚ)) → List (Nat × ℚ)
  | [] => []
  | e :: es => if e.1 = u then e.2 else findAdj u es

/-- The key-creating side of `self.adj[u]` on a defaultdict: if `u` has no
entry yet, a fresh `(u, [])` entry is appended (at the end: dict insertion
order). -/
def touch (u : Nat) (adj : List (Nat × List (Nat × ℚ))) :
    List (Nat × List (Nat × ℚ)) :=
  if hasVertex u adj then adj else adj ++ [(u, [])]

/-- `self.adj[u].append((v, weight))` once `u` has an entry. -/
def appendAdj (u v : Nat) (w : ℚ) (adj : List (Nat × List (Nat × ℚ))) :
    List (Nat × List (Nat × ℚ)) :=
  adj.map fun e => if e.1 = u then (e.1, e.2 ++ [(v, w)]) else e

/-- `Graph.add_edge(u, v, weight)`: append `(v, w)` to `adj[u]` (creating the
entry via the defaultdict), and, if undirected, also `(u, w)` to `adj[v]`. -/
def addEdge (u v : Nat) (w : ℚ) (g : Graph) : Graph :=
  let a1 := appendAdj u v w (touch u g.adj)
  if g.directed then { g with adj := a1 }
  else { g with adj := appendAdj v u w (touch v a1) }

/-- `Graph.add_vertex(v)`: create an empty entry when missing. -/
def addVertex (u : Nat) (g : Graph) : Graph :=
  if hasVertex u g.adj then g else { g with adj := g.adj ++ [(u, [])] }

/-- `Graph.vertices()`: `list(self.adj.keys())` in insertion order. -/
def vertices (g : Graph) : List Nat :=
  g.adj.map fun e => e.1

/-- Adjacency of `u` as the Python code reads it. -/
def adjOf (g : Graph) (u : Nat) : List (Nat × ℚ) :=
  findAdj u g.adj

/-- Appending a key at the end unless already present — how a Python dict
grows its key list. -/
def pushKey (u : Nat) (ks : List Nat) : List Nat :=
  if u ∈ ks then ks else ks ++ [u]
end Graph
namespace AVL

/-- Modelled from the spec (§4.1): the effect insert is claimed to have on a
tree that already contains the key — walk to the node with key `k`, replace
its label unconditionally and its payload only when the supplied payload is
truthy, and leave everything else (structure, heights, other nodes) as is. -/
def updateSpec (k : Int) (nm : String) (d : PyData) : AVL → AVL
  | .leaf => .leaf
  | .node l k0 n0 d0 h0 r =>
      if k < k0 then .node (updateSpec k nm d l) k0 n0 d0 h0 r
      else if k0 < k then .node l k0 n0 d0 h0 (updateSpec k nm d r)
      else .node l k0 nm (if d.isTruthy then d else d0) h0 r
end AVL
namespace BST

/-- Modelled from the code's behaviour on an existing key: walk to the node
with key `k` and overwrite both its label and its payload unconditionally
(`node.name = name; node.data = data`), leaving everything else unchanged. -/
def updateSpec (k : Int) (nm : String) (d : PyData) : BST → BST
  | .leaf => .leaf
  | .node l k0 n0 d0 r =>
      if k < k0 then .node (updateSpec k nm d l) k0 n0 d0 r
      else if k0 < k then .node l k0 n0 d0 (updateSpec k nm d r)
      else .node l k0 nm d r
end BST

/-- AVL tree built by inserting 10, 20, 30 (triggers a left rotation). -/
def avlEx : AVL :=
  AVL.insert 30 "c" .pyNone (AVL.insert 20 "b" .pyNone (AVL.insert 10 "a" .pyNone .leaf))

/-- BST built by inserting 10, 20, 30. -/
def bstEx : BST :=
  BST.insert 30 "c" .pyNone (BST.insert 20 "b" .pyNone (BST.insert 10 "a" .pyNone .leaf))

/-- One-node BST whose node carries a truthy payload. -/
def bstC5 : BST := BST.insert 1 "a" (.value true 7) .leaf

/-- Right-leaning 3-node chain (keys 1, 2, 3 inserted in order). -/
def chain3 : BST :=
  BST.insert 3 "" .pyNone (BST.insert 2 "" .pyNone (BST.insert 1 "" .pyNone .leaf))

/-- Right-leaning 7-node chain (keys 1..7 inserted in order). -/
def chain7 : BST :=
  BST.insert 7 "" .pyNone (BST.insert 6 "" .pyNone (BST.insert 5 "" .pyNone
    (BST.insert 4 "" .pyNone (BST.insert 3 "" .pyNone (BST.insert 2 "" .pyNone
      (BST.insert 1 "" .pyNone .leaf))))))

/-- Right-leaning 15-node chain (keys 1..15 inserted in order) — the concrete
scenario of spec §8. -/
def chain15 : BST :=
  BST.insert 15 "" .pyNone (BST.insert 14 "" .pyNone (BST.insert 13 "" .pyNone
    (BST.insert 12 "" .pyNone (BST.insert 11 "" .pyNone (BST.insert 10 "" .pyNone
      (BST.insert 9 "" .pyNone (BST.insert 8 "" .pyNone (BST.insert 7 "" .pyNone
        (BST.insert 6 "" .pyNone (BST.insert 5 "" .pyNone (BST.insert 4 "" .pyNone
          (BST.insert 3 "" .pyNone (BST.insert 2 "" .pyNone
            (BST.insert 1 "" .pyNone .leaf))))))))))))))

/-- Empty undirected graph. -/
def emptyGraph : Graph := { adj := [], directed := false }

/-- One driver operation on a keyed tree: `insert(key, name, data)` or
`remove(key)` — the mutating interface shared by `AVLTree` and
`BinarySearchTree`. -/
inductive Op where
  | ins (k : Int) (nm : String) (d : PyData) : Op
  | rem (k : Int) : Op

/-- Apply one operation to an AVL tree. -/
def Op.applyA (t : AVL) : Op → AVL
  | .ins k nm d => AVL.insert k nm d t
  | .rem k => AVL.remove k t

/-- Run a sequence of operations on an AVL tree, first operation first. -/
def runA : List Op → AVL → AVL
  | [], t => t
  | op :: ops, t => runA ops (Op.applyA t op)

/-- Apply one operation to a BST. -/
def Op.applyB (t : BST) : Op → BST
  | .ins k nm d => BST.insert k nm d t
  | .rem k => BST.remove k t

/-- Run a sequence of operations on a BST, first operation first. -/
def runB : List Op → BST → BST
  | [], t => t
  | op :: ops, t => runB ops (Op.applyB t op)

/-! ### Dijkstra (`Graph.dijkstra`) -/

namespace Graph

/-- Non-negative edge weights, over the stored adjacency lists. -/
def WNonneg (g : Graph) : Prop :=
  ∀ e ∈ g.adj, ∀ p ∈ e.2, 0 ≤ p.2

/-- The comparison `alt < dist.get(v, inf)` for a finite `alt`
(`none` is `float` infinity, so the comparison is true). -/
def ltOpt (a : ℚ) : Option ℚ → Bool
  | none => true
  | some b => decide (a < b)

/-- The staleness guard `d > dist[u]`; false when `dist[u]` is infinite. -/
def staleAt (d : ℚ) : Option ℚ → Bool
  | none => false
  | some du => decide (du < d)

/-- Lexicographic order on heap entries — how `heapq` compares the
`(distance, vertex)` tuples it stores. -/
def entryLe (a b : ℚ × Nat) : Bool :=
  decide (a.1 < b.1) || (decide (a.1 = b.1) && decide (a.2 ≤ b.2))

/-- Insertion into the heap, modelled as a list kept sorted by the tuple
order: popping the head of the sorted list returns exactly the tuple
`heapq.heappop` would return (equal tuples are indistinguishable). -/
def hpush (x : ℚ × Nat) : List (ℚ × Nat) → List (ℚ × Nat)
  | [] => [x]
  | y :: ys => if entryLe x y then x :: y :: ys else y :: hpush x ys

/-- The mutable state of `dijkstra`: the `dist` and `prev` dictionaries (as
total functions, `none` = `inf`/`None`/key absent — extensionally what the
dict plus `dict.get(v, inf)` implement) and the heap. -/
structure DState where
  dist : Nat → Option ℚ
  prev : Nat → Option Nat
  heap : List (ℚ × Nat)

/-- The body `for v, w in self.adj[u]: alt = dist[u] + w; if alt < ...`.
When `dist[u]` is infinite so is `alt`, and `alt < dist.get(v, inf)` is
false; the dead `if v not in dist` branch re-assigns the value just stored
and is a no-op in the total-function model. -/
def relaxEdges (u : Nat) : List (Nat × ℚ) → DState → DState
  | [], s => s
  | (v, w) :: es, s =>
      match s.dist u with
      | none => relaxEdges u es s
      | some du =>
          let alt := du + w
          if ltOpt alt (s.dist v) then
            relaxEdges u es
              { dist := fun x => if x = v then some alt else s.dist x
                prev := fun x => if x = v then some u else s.prev x
                heap := hpush (alt, v) s.heap }
          else relaxEdges u es s

/-- The `while heap:` loop, with an explicit fuel argument (the Python loop
has none; `claim_C9` shows the fuel below empties the heap, making the
fuel-limited run extensionally the full run). -/
def dloop (g : Graph) : Nat → DState → DState
  | 0, s => s
  | fuel + 1, s =>
      match s.heap with
      | [] => s
      | (d, u) :: rest =>
          if staleAt d (s.dist u) then dloop g fuel { s with heap := rest }
          else dloop g fuel (relaxEdges u (adjOf g u) { s with heap := rest })

/-- Every vertex that can ever be pushed on the heap: the source plus every
edge target. -/
def finVerts (g : Graph) (source : Nat) : Finset Nat :=
  (source :: (g.adj.map fun e => e.2.map fun p => p.1).flatten).toFinset

/-- Fuel bound: one initial pop plus one pop per possible push (each vertex
is expanded at most once, pushing at most its degree). -/
def dijkstraFuel (g : Graph) (source : Nat) : Nat :=
  1 + (finVerts g source).sum fun u => (adjOf g u).length

/-- Initial loop state: `dist = {v: inf for v in adj}` then
`dist[source] = 0` (as a total function), empty `prev`, heap `[(0, source)]`. -/
def dinit (source : Nat) : DState :=
  { dist := fun v => if v = source then some 0 else none
    prev := fun _ => none
    heap := [((0 : ℚ), source)] }

/-- `Graph.dijkstra(source)`: initialise `dist[source] = 0`, push
`(0, source)`, run the loop; if the source is unknown return the initial
maps unchanged (all infinite / absent). -/
def dijkstra (g : Graph) (source : Nat) : (Nat → Option ℚ) × (Nat → Option Nat) :=
  if hasVertex source g.adj then
    let sF := dloop g (dijkstraFuel g source) (dinit source)
    (sF.dist, sF.prev)
  else (fun _ => none, fun _ => none)

/-- An edge of `x` is relaxed when the triangle inequality
`dist[v] ≤ dist[x] + w` holds for it (vacuously, when `dist[x]` is inf). -/
def Relaxed (s : DState) (x : Nat) (p : Nat × ℚ) : Prop :=
  ∀ dx, s.dist x = some dx → ∃ dv, s.dist p.1 = some dv ∧ dv ≤ dx + p.2

/-- A vertex is fresh when the heap still holds an entry carrying its
current distance: it will be expanded (again) before the loop ends. -/
def Fresh (s : DState) (x : Nat) : Prop :=
  ∃ d, (d, x) ∈ s.heap ∧ s.dist x = some d

/-- A vertex is settled when its distance is finite, no smaller key is
pending, and every pending entry of the vertex itself is strictly worse:
from this moment its distance can never change again. -/
def Settled (s : DState) (x : Nat) : Prop :=
  match s.dist x with
  | none => False
  | some q => (∀ p ∈ s.heap, q ≤ p.1) ∧ (∀ p ∈ s.heap, p.2 = x → q < p.1)

/-- Bool form of `Settled`, used to filter inside the termination measure. -/
def settledB (s : DState) (x : Nat) : Bool :=
  match s.dist x with
  | none => false
  | some q =>
      s.heap.all fun p => decide (q ≤ p.1) && (!(decide (p.2 = x)) || decide (q < p.1))

/-- `Settled` vertices protected through one expansion: distance at most the
key being expanded, below every pending key, strictly below their own
pending entries. -/
def Guarded (du : ℚ) (s : DState) (x : Nat) : Prop :=
  ∃ q, s.dist x = some q ∧ q ≤ du ∧ (∀ p ∈ s.heap, q ≤ p.1) ∧
    (∀ p ∈ s.heap, p.2 = x → q < p.1)

/-- Loop invariant of `dijkstra`: the source distance is pinned at `0`, all
finite distances are non-negative, heap entries dominate the current
distance of their vertex, the heap is sorted with per-vertex distinct keys,
every edge is either relaxed or its origin is fresh, and the heap only
holds vertices from `finVerts`. -/
def DInv (g : Graph) (source : Nat) (s : DState) : Prop :=
  s.dist source = some 0 ∧
  (∀ v q, s.dist v = some q → 0 ≤ q) ∧
  (∀ p ∈ s.heap, ∃ dx, s.dist p.2 = some dx ∧ dx ≤ p.1) ∧
  s.heap.Pairwise (fun a b => a.1 ≤ b.1) ∧
  s.heap.Pairwise (fun a b => a.2 = b.2 → a.1 ≠ b.1) ∧
  (∀ x, ∀ p ∈ adjOf g x, Relaxed s x p ∨ Fresh s x) ∧
  (∀ p ∈ s.heap, p.2 ∈ finVerts g source)

/-- Termination measure: pending entries plus the degrees of the vertices
still to settle.  Every loop iteration strictly decreases it. -/
def phi (g : Graph) (source : Nat) (s : DState) : Nat :=
  s.heap.length +
    ((finVerts g source).filter fun u => settledB s u = false).sum
      fun u => (adjOf g u).length

end Graph

/-- A three-vertex directed graph with non-negative weights, used as the
witness input for the Dijkstra claim. -/
def dijkstraEx : Graph :=
  { adj := [(1, [(2, 1), (3, 10)]), (2, [(3, 2)]), (3, [])], directed := true }

/-! ### Theorems -/
namespace AVL

theorem allKeys_mono {p q : Int → Prop} (hpq : ∀ x, p x → q x) :
    ∀ t, allKeys p t → allKeys q t
  | .leaf, _ => trivial
  | .node l k _ _ _ r, ⟨hl, hk, hr⟩ =>
      ⟨allKeys_mono hpq l hl, hpq k hk, allKeys_mono hpq r hr⟩

theorem allKeys_hasKey {p : Int → Prop} {a : Int} :
    ∀ {t}, allKeys p t → hasKey a t = true → p a
  | .node l k _ _ _ r, ⟨hl, hk, hr⟩, h => by
      simp only [hasKey, Bool.or_eq_true, decide_eq_true_eq] at h
      rcases h with (h | h) | h
      · exact h ▸ hk
      · exact allKeys_hasKey hl h
      · exact allKeys_hasKey hr h

/-- Under correct stored heights, the stored height is the real height. -/
theorem sheight_eq_height : ∀ {t}, Hok t → sheight t = height t
  | .leaf, _ => rfl
  | .node l _ _ _ h r, ⟨hl, hr, hh⟩ => by
      show h = 1 + max (height l) (height r)
      rw [hh, sheight_eq_height hl, sheight_eq_height hr]

theorem balanced_of_balS : ∀ {t}, Hok t → BalS t → Balanced t
  | .leaf, _, _ => trivial
  | .node l _ _ _ h r, ⟨hl, hr, _⟩, ⟨bl, br, h1, h2⟩ => by
      refine ⟨balanced_of_balS hl bl, balanced_of_balS hr br, ?_⟩
      rw [← sheight_eq_height hl, ← sheight_eq_height hr, abs_le]
      exact ⟨by omega, by omega⟩

/-- When the stored height is already correct and the node is balanced,
`_rebalance` recomputes the same height and performs no rotation. -/
theorem rebalance_eq_self {l r : AVL} {k : Int} {n : String} {d : PyData} {h0 : Nat}
    (hb1 : sheight l ≤ sheight r + 1) (hb2 : sheight r ≤ sheight l + 1)
    (hh : h0 = 1 + max (sheight l) (sheight r)) :
    rebalance (.node l k n d h0 r) = .node l k n d h0 r := by
  simp only [rebalance]
  rw [if_neg (by omega), if_neg (by omega), hh]
end AVL
namespace BST

theorem allKeys_monoB {p q : Int → Prop} (hpq : ∀ x, p x → q x) :
    ∀ t, allKeys p t → allKeys q t
  | .leaf, _ => trivial
  | .node l k _ _ r, ⟨hl, hk, hr⟩ =>
      ⟨allKeys_monoB hpq l hl, hpq k hk, allKeys_monoB hpq r hr⟩

theorem allKeys_hasKeyB {p : Int → Prop} {a : Int} :
    ∀ {t}, allKeys p t → hasKey a t = true → p a
  | .node l k _ _ r, ⟨hl, hk, hr⟩, h => by
      simp only [hasKey, Bool.or_eq_true, decide_eq_true_eq] at h
      rcases h with (h | h) | h
      · exact h ▸ hk
      · exact allKeys_hasKeyB hl h
      · exact allKeys_hasKeyB hr h
end BST
namespace Graph

theorem hasVertex_iff (u : Nat) (adj : List (Nat × List (Nat × ℚ))) :
    hasVertex u adj = true ↔ u ∈ adj.map (fun e => e.1) := by
  simp only [hasVertex, List.any_eq_true, List.mem_map, decide_eq_true_eq]

theorem keys_appendAdj (u v : Nat) (w : ℚ) :
    ∀ adj, (appendAdj u v w adj).map (fun e => e.1) = adj.map (fun e => e.1)
  | [] => rfl
  | e :: es => by
      simp only [appendAdj, List.map_cons]
      refine congrArg₂ List.cons ?_ ?_
      · split <;> rfl
      · exact keys_appendAdj u v w es

theorem hasVertex_appendAdj (x u v : Nat) (w : ℚ)
    (adj : List (Nat × List (Nat × ℚ))) :
    hasVertex x (appendAdj u v w adj) = hasVertex x adj := by
  rw [Bool.eq_iff_iff, hasVertex_iff, hasVertex_iff, keys_appendAdj]

theorem findAdj_of_absent (x : Nat) :
    ∀ adj, hasVertex x adj = false → findAdj x adj = []
  | [], _ => rfl
  | e :: es, h => by
      simp only [hasVertex, List.any_cons, Bool.or_eq_false_iff,
        decide_eq_false_iff_not] at h
      simp only [findAdj, if_neg h.1]
      exact findAdj_of_absent x es (by simp only [hasVertex]; exact h.2)

theorem findAdj_append_of_absent (x : Nat) :
    ∀ a b, hasVertex x a = false → findAdj x (a ++ b) = findAdj x b
  | [], _, _ => rfl
  | e :: es, b, h => by
      simp only [hasVertex, List.any_cons, Bool.or_eq_false_iff,
        decide_eq_false_iff_not] at h
      simp only [List.cons_append, findAdj, if_neg h.1]
      exact findAdj_append_of_absent x es b (by simp only [hasVertex]; exact h.2)

theorem findAdj_touch_self (u : Nat) (adj : List (Nat × List (Nat × ℚ))) :
    findAdj u (touch u adj) = findAdj u adj := by
  unfold touch
  by_cases h : hasVertex u adj = true
  · rw [if_pos h]
  · have hf : hasVertex u adj = false := by
      rwa [Bool.not_eq_true] at h
    rw [if_neg h, findAdj_append_of_absent u adj _ hf, findAdj_of_absent u adj hf]
    simp [findAdj]

theorem findAdj_append_single_other (x u : Nat) (hx : x ≠ u) :
    ∀ adj, findAdj x (adj ++ [(u, [])]) = findAdj x adj
  | [] => by
      simp only [List.nil_append, findAdj]
      rw [if_neg fun hh => hx hh.symm]
  | e :: es => by
      simp only [List.cons_append, findAdj]
      split
      · rfl
      · exact findAdj_append_single_other x u hx es

theorem findAdj_touch_other (u x : Nat) (hx : x ≠ u)
    (adj : List (Nat × List (Nat × ℚ))) :
    findAdj x (touch u adj) = findAdj x adj := by
  unfold touch
  by_cases h : hasVertex u adj = true
  · rw [if_pos h]
  · rw [if_neg h, findAdj_append_single_other x u hx adj]

theorem hasVertex_touch (u : Nat) (adj : List (Nat × List (Nat × ℚ))) :
    hasVertex u (touch u adj) = true := by
  unfold touch
  by_cases h : hasVertex u adj = true
  · rw [if_pos h]; exact h
  · rw [if_neg h]
    simp [hasVertex, List.any_append]

theorem keys_touch (u : Nat) (adj : List (Nat × List (Nat × ℚ))) :
    (touch u adj).map (fun e => e.1) = pushKey u (adj.map fun e => e.1) := by
  unfold touch pushKey
  by_cases h : hasVertex u adj = true
  · rw [if_pos h, if_pos ((hasVertex_iff u adj).1 h)]
  · have h2 : u ∉ adj.map fun e => e.1 := fun hm => h ((hasVertex_iff u adj).2 hm)
    rw [if_neg h, if_neg h2, List.map_append]
    rfl

theorem findAdj_appendAdj_self (u v : Nat) (w : ℚ) :
    ∀ adj, hasVertex u adj = true →
      findAdj u (appendAdj u v w adj) = findAdj u adj ++ [(v, w)]
  | e :: es, h => by
      simp only [appendAdj, List.map_cons, findAdj]
      by_cases he : e.1 = u
      · rw [if_pos he]
        dsimp only
        rw [if_pos he, if_pos he]
      · rw [if_neg he, if_neg he, if_neg he]
        simp only [hasVertex, List.any_cons, Bool.or_eq_true,
          decide_eq_true_eq] at h
        rcases h with h | h
        · exact absurd h he
        · exact findAdj_appendAdj_self u v w es (by simp only [hasVertex]; exact h)

theorem findAdj_appendAdj_other (u v x : Nat) (w : ℚ) (hx : x ≠ u) :
    ∀ adj, findAdj x (appendAdj u v w adj) = findAdj x adj
  | [] => rfl
  | e :: es => by
      simp only [appendAdj, List.map_cons, findAdj]
      by_cases he : e.1 = u
      · have hne : ¬ e.1 = x := by rw [he]; exact fun hh => hx hh.symm
        rw [if_pos he]
        dsimp only
        rw [if_neg hne, if_neg hne]
        exact findAdj_appendAdj_other u v x w hx es
      · rw [if_neg he]
        by_cases hex : e.1 = x
        · rw [if_pos hex, if_pos hex]
        · rw [if_neg hex, if_neg hex]
          exact findAdj_appendAdj_other u v x w hx es
end Graph
namespace AVL

theorem updateSpec_sheight (k : Int) (nm : String) (d : PyData) :
    ∀ t, sheight (updateSpec k nm d t) = sheight t
  | .leaf => rfl
  | .node _ _ _ _ _ _ => by
      simp only [updateSpec]
      split
      · rfl
      · split <;> rfl

theorem insert_existing (k : Int) (nm : String) (d : PyData) :
    ∀ t : AVL, Hok t → BalS t → Ordered t → hasKey k t = true →
      insert k nm d t = updateSpec k nm d t
  | .node l k0 n0 d0 h0 r, ⟨hkl, hkr, hh⟩, ⟨bl, br, b1, b2⟩, ⟨ol, or', al, ar⟩, hk => by
      simp only [hasKey, Bool.or_eq_true, decide_eq_true_eq] at hk
      rcases lt_trichotomy k k0 with h1 | h1 | h1
      · have hmem : hasKey k l = true := by
          rcases hk with (h | h) | h
          · omega
          · exact h
          · exact absurd (allKeys_hasKey ar h) (by omega)
        have IH := insert_existing k nm d l hkl bl ol hmem
        simp only [insert, updateSpec, if_pos h1]
        rw [IH]
        exact rebalance_eq_self
          (by rw [updateSpec_sheight]; exact b1)
          (by rw [updateSpec_sheight]; exact b2)
          (by rw [updateSpec_sheight]; exact hh)
      · simp only [insert, updateSpec, if_neg (by omega : ¬k < k0),
          if_neg (by omega : ¬k0 < k)]
      · have hmem : hasKey k r = true := by
          rcases hk with (h | h) | h
          · omega
          · exact absurd (allKeys_hasKey al h) (by omega)
          · exact h
        have IH := insert_existing k nm d r hkr br or' hmem
        simp only [insert, updateSpec, if_neg (by omega : ¬k < k0), if_pos h1]
        rw [IH]
        exact rebalance_eq_self
          (by rw [updateSpec_sheight]; exact b1)
          (by rw [updateSpec_sheight]; exact b2)
          (by rw [updateSpec_sheight]; exact hh)

theorem remove_absent :
    ∀ (t : AVL) (k : Int), Hok t → BalS t → hasKey k t = false → remove k t = t
  | .leaf, _, _, _, _ => rfl
  | .node l k0 n0 d0 h0 r, k, ⟨hkl, hkr, hh⟩, ⟨bl, br, b1, b2⟩, hk => by
      simp only [hasKey, Bool.or_eq_false_iff, decide_eq_false_iff_not] at hk
      obtain ⟨⟨hne, hl⟩, hr⟩ := hk
      rcases lt_trichotomy k k0 with h1 | h1 | h1
      · rw [remove.eq_def]
        dsimp only
        rw [if_pos h1, remove_absent l k hkl bl hl]
        exact rebalance_eq_self b1 b2 hh
      · exact absurd h1 hne
      · rw [remove.eq_def]
        dsimp only
        rw [if_neg (by omega : ¬k < k0), if_pos h1, remove_absent r k hkr br hr]
        exact rebalance_eq_self b1 b2 hh
end AVL
namespace BST

theorem insert_existingB (k : Int) (nm : String) (d : PyData) :
    ∀ t : BST, Ordered t → hasKey k t = true →
      insert k nm d t = updateSpec k nm d t
  | .node l k0 n0 d0 r, ⟨ol, or', al, ar⟩, hk => by
      simp only [hasKey, Bool.or_eq_true, decide_eq_true_eq] at hk
      rcases lt_trichotomy k k0 with h1 | h1 | h1
      · have hmem : hasKey k l = true := by
          rcases hk with (h | h) | h
          · omega
          · exact h
          · exact absurd (allKeys_hasKeyB ar h) (by omega)
        simp only [insert, updateSpec, if_pos h1]
        rw [insert_existingB k nm d l ol hmem]
      · simp only [insert, updateSpec, if_neg (by omega : ¬k < k0),
          if_neg (by omega : ¬k0 < k)]
      · have hmem : hasKey k r = true := by
          rcases hk with (h | h) | h
          · omega
          · exact absurd (allKeys_hasKeyB al h) (by omega)
          · exact h
        simp only [insert, updateSpec, if_neg (by omega : ¬k < k0), if_pos h1]
        rw [insert_existingB k nm d r or' hmem]

theorem remove_absentB :
    ∀ (t : BST) (k : Int), hasKey k t = false → remove k t = t
  | .leaf, _, _ => rfl
  | .node l k0 n0 d0 r, k, hk => by
      simp only [hasKey, Bool.or_eq_false_iff, decide_eq_false_iff_not] at hk
      obtain ⟨⟨hne, hl⟩, hr⟩ := hk
      rcases lt_trichotomy k k0 with h1 | h1 | h1
      · rw [remove.eq_def]
        dsimp only
        rw [if_pos h1, remove_absentB l k hl]
      · exact absurd h1 hne
      · rw [remove.eq_def]
        dsimp only
        rw [if_neg (by omega : ¬k < k0), if_pos h1, remove_absentB r k hr]
end BST

/-- C3 (code bug): the claim says a `dsw_balance` call always leaves the
in-order key sequence unchanged, but on the 7-node BST `chain7` the call
raises an `AttributeError` inside `_compress` (`next_child.left` with
`next_child = None`), modelled here by `none`: there is no resulting tree
whose in-order sequence could match, and the Python tree is left in a
half-compressed state when the exception propagates. -/
theorem claim_C3_dsw_raises_on_chain7 : BST.dswBalance chain7 = none := by
  simp [BST.dswBalance, BST.toVine, BST.compress, BST.mgrow, BST.compressLoop,
    chain7, BST.insert, BST.size]

/-- C4 (code bug): the claim says that after `dsw_balance` a tree of `n`
nodes has height `⌈log₂ (n+1)⌉`; on the spec's own §8 scenario — the 15-node
ascending chain — the call raises inside `_compress` instead of producing a
height-4 tree, because `dsw_balance` computes `m = 7` instead of `15` when
`n + 1` is a power of two, making the first compression pass overrun the
vine. -/
theorem claim_C4_dsw_raises_on_chain15 : BST.dswBalance chain15 = none := by
  simp [BST.dswBalance, BST.toVine, BST.compress, BST.mgrow, BST.compressLoop,
    chain15, BST.insert, BST.size]

/-- C5 counterexample: re-inserting key 1 with no payload (`None`) into a BST
whose node holds a truthy payload overwrites the payload with `None` instead
of preserving it (`node.data = data` is unconditional in the BST, unlike the
AVL's `node.data = data or node.data`). -/
theorem claim_C5_cex :
    BST.getData 1 (BST.insert 1 "b" .pyNone bstC5) = some .pyNone ∧
    BST.getData 1 bstC5 = some (.value true 7) ∧
    AVL.getData 1 (AVL.insert 1 "b" .pyNone
        (AVL.insert 1 "a" (.value true 7) .leaf)) = some (.value true 7) := by
  decide

/-- C5 (amended): on an ordered BST that already contains `k`,
`insert(k, label, payload)` walks to the node with key `k` and overwrites
both its label and its payload unconditionally (the payload is replaced even
when the supplied payload is absent or empty, so the previous payload is not
preserved), leaving the rest of the tree unchanged. -/
theorem claim_C5_amended (k : Int) (nm : String) (d : PyData) (b : BST)
    (ho : BST.Ordered b) (hk : BST.hasKey k b = true) :
    BST.insert k nm d b = BST.updateSpec k nm d b :=
  BST.insert_existingB k nm d b ho hk

theorem claim_C5_witness :
    BST.Ordered bstC5 ∧ BST.hasKey 1 bstC5 = true ∧
      BST.insert 1 "b" .pyNone bstC5 = BST.updateSpec 1 "b" .pyNone bstC5 :=
  ⟨by decide, by decide, claim_C5_amended 1 "b" .pyNone bstC5 (by decide) (by decide)⟩

/-- C6: on a well-formed AVL tree (correct stored heights, balanced, ordered)
that already contains `k`, `insert(k, label, payload)` equals the in-place
update that overwrites the node's label unconditionally, overwrites its
payload exactly when the supplied payload is truthy (non-empty), and leaves
the tree's structure, heights and all other nodes unchanged. -/
theorem claim_C6_insert_existing_updates (k : Int) (nm : String) (d : PyData)
    (t : AVL) (hh : AVL.Hok t) (hb : AVL.BalS t) (ho : AVL.Ordered t)
    (hk : AVL.hasKey k t = true) :
    AVL.insert k nm d t = AVL.updateSpec k nm d t :=
  AVL.insert_existing k nm d t hh hb ho hk

theorem claim_C6_witness :
    AVL.Hok avlEx ∧ AVL.BalS avlEx ∧ AVL.Ordered avlEx ∧
      AVL.hasKey 20 avlEx = true ∧
      AVL.insert 20 "x" .pyNone avlEx = AVL.updateSpec 20 "x" .pyNone avlEx :=
  ⟨by decide, by decide, by decide, by decide,
    claim_C6_insert_existing_updates 20 "x" .pyNone avlEx
      (by decide) (by decide) (by decide) (by decide)⟩

/-- C7 counterexample: on the empty undirected graph, `add_edge(1, 2, 1)`
changes `vertices()` — the adjacency `defaultdict` creates entries for both
endpoints, so the vertex set does not stay unchanged as the claim states. -/
theorem claim_C7_cex :
    Graph.vertices (Graph.addEdge 1 2 1 emptyGraph) ≠ Graph.vertices emptyGraph := by
  decide

/-- C7 (amended): `add_edge(u, v, w)` appends the weighted edge `u→v` (and
`v→u` when undirected), but — because `self.adj` is a `defaultdict(list)` —
it also creates the entry for `u` (and for `v` when undirected) when missing:
`vertices()` gains exactly the missing endpoints, in that order, rather than
staying unchanged. -/
theorem claim_C7_amended (g : Graph) (u v : Nat) (w : ℚ) :
    Graph.vertices (Graph.addEdge u v w g) =
      (if g.directed = true then Graph.pushKey u (Graph.vertices g)
        else Graph.pushKey v (Graph.pushKey u (Graph.vertices g))) ∧
    Graph.adjOf (Graph.addEdge u v w g) u =
      Graph.adjOf g u ++
        (if g.directed = false ∧ u = v then [(v, w), (u, w)] else [(v, w)]) ∧
    (if g.directed = false ∧ u ≠ v
      then Graph.adjOf (Graph.addEdge u v w g) v = Graph.adjOf g v ++ [(u, w)]
      else True) := by
  unfold Graph.addEdge
  by_cases hd : g.directed = true
  · rw [if_pos hd]
    refine ⟨?_, ?_, ?_⟩
    · rw [if_pos hd]
      show (Graph.appendAdj u v w (Graph.touch u g.adj)).map _ = _
      rw [Graph.keys_appendAdj, Graph.keys_touch]
      rfl
    · rw [if_neg (by simp [hd])]
      show Graph.findAdj u (Graph.appendAdj u v w (Graph.touch u g.adj)) = _
      rw [Graph.findAdj_appendAdj_self u v w _ (Graph.hasVertex_touch u g.adj),
        Graph.findAdj_touch_self]
      rfl
    · rw [if_neg (by simp [hd])]
      trivial
  · have hd2 : g.directed = false := by rwa [Bool.not_eq_true] at hd
    rw [if_neg hd]
    refine ⟨?_, ?_, ?_⟩
    · rw [if_neg hd]
      show (Graph.appendAdj v u w (Graph.touch v
        (Graph.appendAdj u v w (Graph.touch u g.adj)))).map _ = _
      rw [Graph.keys_appendAdj, Graph.keys_touch, Graph.keys_appendAdj,
        Graph.keys_touch]
      rfl
    · by_cases huv : u = v
      · subst huv
        rw [if_pos ⟨hd2, rfl⟩]
        show Graph.findAdj u (Graph.appendAdj u u w (Graph.touch u
          (Graph.appendAdj u u w (Graph.touch u g.adj)))) = _
        rw [Graph.findAdj_appendAdj_self u u w _ (Graph.hasVertex_touch u _),
          Graph.findAdj_touch_self,
          Graph.findAdj_appendAdj_self u u w _ (Graph.hasVertex_touch u _),
          Graph.findAdj_touch_self, List.append_assoc]
        rfl
      · rw [if_neg (by simp [huv])]
        show Graph.findAdj u (Graph.appendAdj v u w (Graph.touch v
          (Graph.appendAdj u v w (Graph.touch u g.adj)))) = _
        rw [Graph.findAdj_appendAdj_other v u u w huv,
          Graph.findAdj_touch_other v u huv,
          Graph.findAdj_appendAdj_self u v w _ (Graph.hasVertex_touch u _),
          Graph.findAdj_touch_self]
        rfl
    · by_cases huv : u = v
      · rw [if_neg (by simp [huv])]
        trivial
      · rw [if_pos ⟨hd2, huv⟩]
        show Graph.findAdj v (Graph.appendAdj v u w (Graph.touch v
          (Graph.appendAdj u v w (Graph.touch u g.adj)))) = _
        rw [Graph.findAdj_appendAdj_self v u w _ (Graph.hasVertex_touch v _),
          Graph.findAdj_touch_self,
          Graph.findAdj_appendAdj_other u v v w (fun hh => huv hh.symm),
          Graph.findAdj_touch_other u v (fun hh => huv hh.symm)]
        rfl

/-- C8: removing an absent key is a silent no-op on both tree types: on a
well-formed AVL tree (correct stored heights and balanced, so that the
on-path `_rebalance` calls do nothing) and on any BST, `remove(k)` returns
the tree unchanged and raises no error. -/
theorem claim_C8_remove_absent_noop (t : AVL) (b : BST) (k : Int)
    (hh : AVL.Hok t) (hb : AVL.BalS t)
    (ht : AVL.hasKey k t = false) (hbk : BST.hasKey k b = false) :
    AVL.remove k t = t ∧ BST.remove k b = b :=
  ⟨AVL.remove_absent t k hh hb ht, BST.remove_absentB b k hbk⟩

theorem claim_C8_witness :
    AVL.Hok avlEx ∧ AVL.BalS avlEx ∧ AVL.hasKey 99 avlEx = false ∧
      BST.hasKey 99 bstEx = false ∧
      (AVL.remove 99 avlEx = avlEx ∧ BST.remove 99 bstEx = bstEx) :=
  ⟨by decide, by decide, by decide, by decide,
    claim_C8_remove_absent_noop avlEx bstEx 99
      (by decide) (by decide) (by decide) (by decide)⟩

/-- C10 (code bug): the claim says `dsw_balance` never dereferences a missing
node and always completes; on the 3-node chain the first compression pass is
asked for `n - m = 2` rotations while the vine only supports one, so
`_compress` reaches `next_child.left` with `next_child = None` and the
Python code raises — modelled by the `none` result. -/
theorem claim_C10_dsw_raises_on_chain3 : BST.dswBalance chain3 = none := by
  simp [BST.dswBalance, BST.toVine, BST.compress, BST.mgrow, BST.compressLoop,
    chain3, BST.insert, BST.size]

/-! ### Order invariant: rotations, rebalance, insert, remove (AVL) -/

namespace AVL

theorem allKeys_rotateRight {p : Int → Prop} :
    ∀ {t}, allKeys p t → allKeys p (rotateRight t)
  | .leaf, h => h
  | .node .leaf _ _ _ _ _, h => h
  | .node (.node _ _ _ _ _ _) _ _ _ _ _, ⟨⟨p1, p2, p3⟩, pk, p4⟩ =>
      ⟨p1, p2, p3, pk, p4⟩

theorem allKeys_rotateLeft {p : Int → Prop} :
    ∀ {t}, allKeys p t → allKeys p (rotateLeft t)
  | .leaf, h => h
  | .node _ _ _ _ _ .leaf, h => h
  | .node _ _ _ _ _ (.node _ _ _ _ _ _), ⟨p1, pk, p2, p3, p4⟩ =>
      ⟨⟨p1, pk, p2⟩, p3, p4⟩

theorem ordered_rotateRight : ∀ {t}, Ordered t → Ordered (rotateRight t)
  | .leaf, h => h
  | .node .leaf _ _ _ _ _, h => h
  | .node (.node _ _ _ _ _ _) _ _ _ _ r,
      ⟨⟨oll, olr, all2, alr⟩, or2, ⟨_, alk, al3⟩, ar⟩ =>
      ⟨oll, ⟨olr, or2, al3, ar⟩, all2, alr, alk,
        allKeys_mono (fun _ hx => lt_trans alk hx) r ar⟩

theorem ordered_rotateLeft : ∀ {t}, Ordered t → Ordered (rotateLeft t)
  | .leaf, h => h
  | .node _ _ _ _ _ .leaf, h => h
  | .node l _ _ _ _ (.node _ _ _ _ _ _),
      ⟨ol, ⟨orl, orr, arl, arr⟩, al, ar1, ark, _⟩ =>
      ⟨⟨ol, orl, al, ar1⟩, orr,
        ⟨allKeys_mono (fun _ hx => lt_trans hx ark) l al, ark, arl⟩, arr⟩

theorem allKeys_rebalance {p : Int → Prop} {l r : AVL} {k : Int} {n : String}
    {d : PyData} {h0 : Nat} (h : allKeys p l ∧ p k ∧ allKeys p r) :
    allKeys p (rebalance (.node l k n d h0 r)) := by
  obtain ⟨al, pk, ar⟩ := h
  simp only [rebalance]
  split
  · split
    · exact allKeys_rotateRight ⟨allKeys_rotateLeft al, pk, ar⟩
    · exact allKeys_rotateRight ⟨al, pk, ar⟩
  · split
    · split
      · exact allKeys_rotateLeft ⟨al, pk, allKeys_rotateRight ar⟩
      · exact allKeys_rotateLeft ⟨al, pk, ar⟩
    · exact ⟨al, pk, ar⟩

theorem ordered_rebalance {l r : AVL} {k : Int} {n : String} {d : PyData}
    {h0 : Nat}
    (h : Ordered l ∧ Ordered r ∧ allKeys (· < k) l ∧ allKeys (k < ·) r) :
    Ordered (rebalance (.node l k n d h0 r)) := by
  obtain ⟨ol, or2, al, ar⟩ := h
  simp only [rebalance]
  split
  · split
    · exact ordered_rotateRight ⟨ordered_rotateLeft ol, or2, allKeys_rotateLeft al, ar⟩
    · exact ordered_rotateRight ⟨ol, or2, al, ar⟩
  · split
    · split
      · exact ordered_rotateLeft ⟨ol, ordered_rotateRight or2, al, allKeys_rotateRight ar⟩
      · exact ordered_rotateLeft ⟨ol, or2, al, ar⟩
    · exact ⟨ol, or2, al, ar⟩

theorem allKeys_insert {p : Int → Prop} (k : Int) (nm : String) (d : PyData)
    (hk : p k) : ∀ t, allKeys p t → allKeys p (insert k nm d t)
  | .leaf, _ => ⟨trivial, hk, trivial⟩
  | .node l k0 n0 d0 h0 r, ⟨al, pk0, ar⟩ => by
      simp only [insert]
      split
      · exact allKeys_rebalance ⟨allKeys_insert k nm d hk l al, pk0, ar⟩
      · split
        · exact allKeys_rebalance ⟨al, pk0, allKeys_insert k nm d hk r ar⟩
        · exact ⟨al, pk0, ar⟩

theorem ordered_insert (k : Int) (nm : String) (d : PyData) :
    ∀ t, Ordered t → Ordered (insert k nm d t)
  | .leaf, _ => ⟨trivial, trivial, trivial, trivial⟩
  | .node l k0 n0 d0 h0 r, ⟨ol, or2, al, ar⟩ => by
      simp only [insert]
      split
      · rename_i h1
        exact ordered_rebalance
          ⟨ordered_insert k nm d l ol, or2,
            @allKeys_insert (· < k0) k nm d h1 l al, ar⟩
      · split
        · rename_i h2
          exact ordered_rebalance
            ⟨ol, ordered_insert k nm d r or2, al,
              @allKeys_insert (k0 < ·) k nm d h2 r ar⟩
        · exact ⟨ol, or2, al, ar⟩

theorem minNode_allKeys {p : Int → Prop} :
    ∀ {l : AVL} {k : Int} {n : String} {d : PyData} {h : Nat} {r : AVL},
      allKeys p (.node l k n d h r) → p (minNode (.node l k n d h r)).1
  | .leaf, _, _, _, _, _, ⟨_, pk, _⟩ => pk
  | .node _ _ _ _ _ _, _, _, _, _, _, ⟨hl, _, _⟩ => by
      simp only [minNode]
      exact minNode_allKeys hl

theorem minNode_lb :
    ∀ {l : AVL} {k : Int} {n : String} {d : PyData} {h : Nat} {r : AVL},
      Ordered (.node l k n d h r) →
      allKeys (fun x => (minNode (.node l k n d h r)).1 ≤ x) (.node l k n d h r)
  | .leaf, k, _, _, _, r, ⟨_, _, _, ar⟩ =>
      ⟨trivial, le_refl k, allKeys_mono (fun _ hx => le_of_lt hx) r ar⟩
  | .node ll lk ln ld lh lr, k, n, d, h, r, ⟨ol, _, al, ar⟩ => by
      simp only [minNode]
      have IH := minNode_lb ol
      have hlt : (minNode (.node ll lk ln ld lh lr)).1 < k := minNode_allKeys al
      exact ⟨IH, le_of_lt hlt,
        allKeys_mono (fun _ hx => le_of_lt (lt_trans hlt hx)) r ar⟩

theorem allKeys_and {p q : Int → Prop} :
    ∀ {t}, allKeys p t → allKeys q t → allKeys (fun x => p x ∧ q x) t
  | .leaf, _, _ => trivial
  | .node _ _ _ _ _ _, ⟨pl, pk, pr⟩, ⟨ql, qk, qr⟩ =>
      ⟨allKeys_and pl ql, ⟨pk, qk⟩, allKeys_and pr qr⟩

theorem allKeys_remove {p : Int → Prop} (k : Int) :
    ∀ t, allKeys p t → allKeys p (remove k t)
  | .leaf, h => h
  | .node l k0 n0 d0 h0 r, ⟨al, pk0, ar⟩ => by
      rw [remove.eq_def]
      dsimp only
      rcases lt_trichotomy k k0 with h1 | h1 | h1
      · rw [if_pos h1]
        exact allKeys_rebalance ⟨allKeys_remove k l al, pk0, ar⟩
      · rw [if_neg (by omega : ¬ k < k0), if_neg (by omega : ¬ k0 < k)]
        match l, r, al, ar with
        | .leaf, _, _, ar => exact ar
        | .node _ _ _ _ _ _, .leaf, al, _ => exact al
        | .node a b c dd e f, .node a2 b2 c2 d2 e2 f2, al, ar =>
            exact allKeys_rebalance
              ⟨al, minNode_allKeys ar, allKeys_remove _ _ ar⟩
      · rw [if_neg (by omega : ¬ k < k0), if_pos h1]
        exact allKeys_rebalance ⟨al, pk0, allKeys_remove k r ar⟩

theorem remove_notin (k : Int) :
    ∀ t, Ordered t → allKeys (fun x => x ≠ k) (remove k t)
  | .leaf, _ => trivial
  | .node l k0 n0 d0 h0 r, ⟨ol, or2, al, ar⟩ => by
      rw [remove.eq_def]
      dsimp only
      rcases lt_trichotomy k k0 with h1 | h1 | h1
      · rw [if_pos h1]
        exact allKeys_rebalance ⟨remove_notin k l ol, by omega,
          allKeys_mono (fun x hx => by omega) r ar⟩
      · rw [if_neg (by omega : ¬ k < k0), if_neg (by omega : ¬ k0 < k)]
        match l, r, al, ar with
        | .leaf, _, _, ar =>
            exact allKeys_mono (fun x hx => by omega) _ ar
        | .node _ _ _ _ _ _, .leaf, al, _ =>
            exact allKeys_mono (fun x hx => by omega) _ al
        | .node a b c dd e f, .node a2 b2 c2 d2 e2 f2, al, ar =>
            refine allKeys_rebalance
              ⟨allKeys_mono (fun x hx => by omega) _ al, ?_, ?_⟩
            · have := @minNode_allKeys (fun x => k0 < x) a2 b2 c2 d2 e2 f2 ar
              omega
            · exact allKeys_remove _ _ (allKeys_mono (fun x hx => by omega) _ ar)
      · rw [if_neg (by omega : ¬ k < k0), if_pos h1]
        exact allKeys_rebalance ⟨allKeys_mono (fun x hx => by omega) _ al,
          by omega, remove_notin k r or2⟩

theorem ordered_remove (k : Int) : ∀ t, Ordered t → Ordered (remove k t)
  | .leaf, h => h
  | .node l k0 n0 d0 h0 r, ⟨ol, or2, al, ar⟩ => by
      rw [remove.eq_def]
      dsimp only
      rcases lt_trichotomy k k0 with h1 | h1 | h1
      · rw [if_pos h1]
        exact ordered_rebalance
          ⟨ordered_remove k l ol, or2, allKeys_remove k l al, ar⟩
      · rw [if_neg (by omega : ¬ k < k0), if_neg (by omega : ¬ k0 < k)]
        match l, r, ol, or2, al, ar with
        | .leaf, _, _, or2, _, _ => exact or2
        | .node _ _ _ _ _ _, .leaf, ol, _, _, _ => exact ol
        | .node a b c dd e f, .node a2 b2 c2 d2 e2 f2, ol, or2, al, ar =>
            have hmin : k0 < (minNode (.node a2 b2 c2 d2 e2 f2)).1 :=
              minNode_allKeys ar
            have hlb := minNode_lb or2
            have hne := remove_notin (minNode (.node a2 b2 c2 d2 e2 f2)).1 _ or2
            refine ordered_rebalance ⟨ol, ordered_remove _ _ or2, ?_, ?_⟩
            · exact allKeys_mono (fun _ hx => lt_trans hx hmin) _ al
            · exact allKeys_mono
                (fun x hx => lt_of_le_of_ne hx.1 (Ne.symm hx.2)) _
                (allKeys_and (allKeys_remove _ _ hlb) hne)
      · rw [if_neg (by omega : ¬ k < k0), if_pos h1]
        exact ordered_rebalance
          ⟨ol, ordered_remove k r or2, al, allKeys_remove k r ar⟩

theorem allKeys_mem {p : Int → Prop} :
    ∀ {t}, allKeys p t → ∀ x ∈ inorderKeys t, p x
  | .leaf, _, x, hx => absurd hx (List.not_mem_nil x)
  | .node l k _ _ _ r, ⟨al, pk, ar⟩, x, hx => by
      simp only [inorderKeys, List.mem_append, List.mem_cons] at hx
      rcases hx with h | h | h
      · exact allKeys_mem al x h
      · exact h ▸ pk
      · exact allKeys_mem ar x h

theorem pairwise_inorder : ∀ {t}, Ordered t → (inorderKeys t).Pairwise (· < ·)
  | .leaf, _ => List.Pairwise.nil
  | .node l k _ _ _ r, ⟨ol, or2, al, ar⟩ => by
      simp only [inorderKeys]
      rw [List.pairwise_append]
      refine ⟨pairwise_inorder ol, ?_, ?_⟩
      · rw [List.pairwise_cons]
        exact ⟨fun y hy => allKeys_mem ar y hy, pairwise_inorder or2⟩
      · intro x hx y hy
        rcases List.mem_cons.1 hy with h | h
        · exact h ▸ allKeys_mem al x hx
        · exact lt_trans (allKeys_mem al x hx) (allKeys_mem ar y h)

end AVL

/-! ### Order invariant: insert and remove (plain BST) -/

namespace BST

theorem allKeys_insertB {p : Int → Prop} (k : Int) (nm : String) (d : PyData)
    (hk : p k) : ∀ t, allKeys p t → allKeys p (insert k nm d t)
  | .leaf, _ => ⟨trivial, hk, trivial⟩
  | .node l k0 n0 d0 r, ⟨al, pk0, ar⟩ => by
      simp only [insert]
      split
      · exact ⟨allKeys_insertB k nm d hk l al, pk0, ar⟩
      · split
        · exact ⟨al, pk0, allKeys_insertB k nm d hk r ar⟩
        · exact ⟨al, pk0, ar⟩

theorem ordered_insertB (k : Int) (nm : String) (d : PyData) :
    ∀ t, Ordered t → Ordered (insert k nm d t)
  | .leaf, _ => ⟨trivial, trivial, trivial, trivial⟩
  | .node l k0 n0 d0 r, ⟨ol, or2, al, ar⟩ => by
      simp only [insert]
      split
      · rename_i h1
        exact ⟨ordered_insertB k nm d l ol, or2,
          @allKeys_insertB (· < k0) k nm d h1 l al, ar⟩
      · split
        · rename_i h2
          exact ⟨ol, ordered_insertB k nm d r or2, al,
            @allKeys_insertB (k0 < ·) k nm d h2 r ar⟩
        · exact ⟨ol, or2, al, ar⟩

theorem minNode_allKeysB {p : Int → Prop} :
    ∀ {l : BST} {k : Int} {n : String} {d : PyData} {r : BST},
      allKeys p (.node l k n d r) → p (minNode (.node l k n d r)).1
  | .leaf, _, _, _, _, ⟨_, pk, _⟩ => pk
  | .node _ _ _ _ _, _, _, _, _, ⟨hl, _, _⟩ => by
      simp only [minNode]
      exact minNode_allKeysB hl

theorem minNode_lbB :
    ∀ {l : BST} {k : Int} {n : String} {d : PyData} {r : BST},
      Ordered (.node l k n d r) →
      allKeys (fun x => (minNode (.node l k n d r)).1 ≤ x) (.node l k n d r)
  | .leaf, k, _, _, r, ⟨_, _, _, ar⟩ =>
      ⟨trivial, le_refl k, allKeys_monoB (fun _ hx => le_of_lt hx) r ar⟩
  | .node ll lk ln ld lr, k, n, d, r, ⟨ol, _, al, ar⟩ => by
      simp only [minNode]
      have IH := minNode_lbB ol
      have hlt : (minNode (.node ll lk ln ld lr)).1 < k := minNode_allKeysB al
      exact ⟨IH, le_of_lt hlt,
        allKeys_monoB (fun _ hx => le_of_lt (lt_trans hlt hx)) r ar⟩

theorem allKeys_andB {p q : Int → Prop} :
    ∀ {t}, allKeys p t → allKeys q t → allKeys (fun x => p x ∧ q x) t
  | .leaf, _, _ => trivial
  | .node _ _ _ _ _, ⟨pl, pk, pr⟩, ⟨ql, qk, qr⟩ =>
      ⟨allKeys_andB pl ql, ⟨pk, qk⟩, allKeys_andB pr qr⟩

theorem allKeys_removeB {p : Int → Prop} (k : Int) :
    ∀ t, allKeys p t → allKeys p (remove k t)
  | .leaf, h => h
  | .node l k0 n0 d0 r, ⟨al, pk0, ar⟩ => by
      rw [remove.eq_def]
      dsimp only
      rcases lt_trichotomy k k0 with h1 | h1 | h1
      · rw [if_pos h1]
        exact ⟨allKeys_removeB k l al, pk0, ar⟩
      · rw [if_neg (by omega : ¬ k < k0), if_neg (by omega : ¬ k0 < k)]
        match l, r, al, ar with
        | .leaf, _, _, ar => exact ar
        | .node _ _ _ _ _, .leaf, al, _ => exact al
        | .node a b c dd f, .node a2 b2 c2 d2 f2, al, ar =>
            exact ⟨al, minNode_allKeysB ar, allKeys_removeB _ _ ar⟩
      · rw [if_neg (by omega : ¬ k < k0), if_pos h1]
        exact ⟨al, pk0, allKeys_removeB k r ar⟩

theorem remove_notinB (k : Int) :
    ∀ t, Ordered t → allKeys (fun x => x ≠ k) (remove k t)
  | .leaf, _ => trivial
  | .node l k0 n0 d0 r, ⟨ol, or2, al, ar⟩ => by
      rw [remove.eq_def]
      dsimp only
      rcases lt_trichotomy k k0 with h1 | h1 | h1
      · rw [if_pos h1]
        exact ⟨remove_notinB k l ol, by omega,
          allKeys_monoB (fun x hx => by omega) r ar⟩
      · rw [if_neg (by omega : ¬ k < k0), if_neg (by omega : ¬ k0 < k)]
        match l, r, al, ar with
        | .leaf, _, _, ar =>
            exact allKeys_monoB (fun x hx => by omega) _ ar
        | .node _ _ _ _ _, .leaf, al, _ =>
            exact allKeys_monoB (fun x hx => by omega) _ al
        | .node a b c dd f, .node a2 b2 c2 d2 f2, al, ar =>
            refine ⟨allKeys_monoB (fun x hx => by omega) _ al, ?_, ?_⟩
            · have := @minNode_allKeysB (fun x => k0 < x) a2 b2 c2 d2 f2 ar
              omega
            · exact allKeys_removeB _ _ (allKeys_monoB (fun x hx => by omega) _ ar)
      · rw [if_neg (by omega : ¬ k < k0), if_pos h1]
        exact ⟨allKeys_monoB (fun x hx => by omega) _ al,
          by omega, remove_notinB k r or2⟩

theorem ordered_removeB (k : Int) : ∀ t, Ordered t → Ordered (remove k t)
  | .leaf, h => h
  | .node l k0 n0 d0 r, ⟨ol, or2, al, ar⟩ => by
      rw [remove.eq_def]
      dsimp only
      rcases lt_trichotomy k k0 with h1 | h1 | h1
      · rw [if_pos h1]
        exact ⟨ordered_removeB k l ol, or2, allKeys_removeB k l al, ar⟩
      · rw [if_neg (by omega : ¬ k < k0), if_neg (by omega : ¬ k0 < k)]
        match l, r, ol, or2, al, ar with
        | .leaf, _, _, or2, _, _ => exact or2
        | .node _ _ _ _ _, .leaf, ol, _, _, _ => exact ol
        | .node a b c dd f, .node a2 b2 c2 d2 f2, ol, or2, al, ar =>
            have hmin : k0 < (minNode (.node a2 b2 c2 d2 f2)).1 :=
              minNode_allKeysB ar
            have hlb := minNode_lbB or2
            have hne := remove_notinB (minNode (.node a2 b2 c2 d2 f2)).1 _ or2
            refine ⟨ol, ordered_removeB _ _ or2, ?_, ?_⟩
            · exact allKeys_monoB (fun _ hx => lt_trans hx hmin) _ al
            · exact allKeys_monoB
                (fun x hx => lt_of_le_of_ne hx.1 (Ne.symm hx.2)) _
                (allKeys_andB (allKeys_removeB _ _ hlb) hne)
      · rw [if_neg (by omega : ¬ k < k0), if_pos h1]
        exact ⟨ol, ordered_removeB k r or2, al, allKeys_removeB k r ar⟩

theorem allKeys_memB {p : Int → Prop} :
    ∀ {t}, allKeys p t → ∀ x ∈ inorderKeys t, p x
  | .leaf, _, x, hx => absurd hx (List.not_mem_nil x)
  | .node l k _ _ r, ⟨al, pk, ar⟩, x, hx => by
      simp only [inorderKeys, List.mem_append, List.mem_cons] at hx
      rcases hx with h | h | h
      · exact allKeys_memB al x h
      · exact h ▸ pk
      · exact allKeys_memB ar x h

theorem pairwise_inorderB : ∀ {t}, Ordered t → (inorderKeys t).Pairwise (· < ·)
  | .leaf, _ => List.Pairwise.nil
  | .node l k _ _ r, ⟨ol, or2, al, ar⟩ => by
      simp only [inorderKeys]
      rw [List.pairwise_append]
      refine ⟨pairwise_inorderB ol, ?_, ?_⟩
      · rw [List.pairwise_cons]
        exact ⟨fun y hy => allKeys_memB ar y hy, pairwise_inorderB or2⟩
      · intro x hx y hy
        rcases List.mem_cons.1 hy with h | h
        · exact h ▸ allKeys_memB al x hx
        · exact lt_trans (allKeys_memB al x hx) (allKeys_memB ar y h)

end BST

/-! ### Order invariant under arbitrary operation sequences -/

theorem ordered_runA : ∀ (ops : List Op) (t : AVL),
    AVL.Ordered t → AVL.Ordered (runA ops t)
  | [], _, h => h
  | .ins k nm d :: ops, t, h => ordered_runA ops _ (AVL.ordered_insert k nm d t h)
  | .rem k :: ops, t, h => ordered_runA ops _ (AVL.ordered_remove k t h)

theorem ordered_runB : ∀ (ops : List Op) (t : BST),
    BST.Ordered t → BST.Ordered (runB ops t)
  | [], _, h => h
  | .ins k nm d :: ops, t, h => ordered_runB ops _ (BST.ordered_insertB k nm d t h)
  | .rem k :: ops, t, h => ordered_runB ops _ (BST.ordered_removeB k t h)

/-- C2: for every sequence of insert and remove operations applied to an
initially empty tree — of either type — the resulting tree satisfies the BST
order invariant: the in-order traversal lists keys in strictly increasing
order (equivalently, at every node all left keys are smaller and all right
keys larger, which is the `Ordered` predicate these runs preserve). -/
theorem claim_C2_order_invariant (ops : List Op) :
    ((runA ops .leaf).inorderKeys).Pairwise (· < ·) ∧
    ((runB ops .leaf).inorderKeys).Pairwise (· < ·) :=
  ⟨AVL.pairwise_inorder (ordered_runA ops .leaf trivial),
   BST.pairwise_inorderB (ordered_runB ops .leaf trivial)⟩

/-! ### AVL balance invariant -/

namespace AVL

theorem sheight_node (l : AVL) (k : Int) (n : String) (d : PyData) (h : Nat)
    (r : AVL) : sheight (.node l k n d h r) = h := rfl

theorem bfac_node (l : AVL) (k : Int) (n : String) (d : PyData) (h : Nat)
    (r : AVL) : bfac (.node l k n d h r) = (sheight l : Int) - sheight r := rfl

theorem rebalance_spec {l r : AVL} {k : Int} {n : String} {d : PyData}
    {h0 : Nat} (HL : Hok l) (HR : Hok r) (BL : BalS l) (BR : BalS r)
    (hd1 : sheight l ≤ sheight r + 2) (hd2 : sheight r ≤ sheight l + 2) :
    Hok (rebalance (.node l k n d h0 r)) ∧
    BalS (rebalance (.node l k n d h0 r)) ∧
    max (sheight l) (sheight r) ≤ sheight (rebalance (.node l k n d h0 r)) ∧
    sheight (rebalance (.node l k n d h0 r)) ≤ 1 + max (sheight l) (sheight r) ∧
    (sheight l + 2 ≤ sheight r ∨ sheight r + 2 ≤ sheight l ∨
      sheight (rebalance (.node l k n d h0 r)) = 1 + max (sheight l) (sheight r)) := by
  simp only [rebalance]
  split
  · rename_i hb
    rcases l with _ | ⟨ll, lk, ln, ld, lh, lr⟩
    · exfalso
      simp only [sheight] at hb
      omega
    · obtain ⟨Hll, Hlr, hlh⟩ := HL
      obtain ⟨Bll, Blr, bl1, bl2⟩ := BL
      simp only [sheight_node] at hb hd1 hd2 ⊢
      split
      · rename_i hbl
        simp only [bfac_node] at hbl
        rcases lr with _ | ⟨lrl, lrk, lrn, lrd, lrh, lrr⟩
        · exfalso
          simp only [sheight] at hbl hlh
          omega
        · obtain ⟨Hlrl, Hlrr, hlrh⟩ := Hlr
          obtain ⟨Blrl, Blrr, br1, br2⟩ := Blr
          simp only [sheight_node] at hbl hlh bl1 bl2
          simp only [rotateLeft, rotateRight, sheight_node]
          refine ⟨⟨⟨Hll, Hlrl, ?_⟩, ⟨Hlrr, HR, ?_⟩, ?_⟩,
            ⟨⟨Bll, Blrl, ?_, ?_⟩, ⟨Blrr, BR, ?_, ?_⟩, ?_, ?_⟩, ?_, ?_, ?_⟩
          all_goals try simp only [sheight_node]
          all_goals omega
      · rename_i hbl
        simp only [bfac_node] at hbl
        try simp only [sheight_node] at hlh bl1 bl2
        simp only [rotateRight, sheight_node]
        refine ⟨⟨Hll, ⟨Hlr, HR, ?_⟩, ?_⟩,
          ⟨Bll, ⟨Blr, BR, ?_, ?_⟩, ?_, ?_⟩, ?_, ?_, ?_⟩
        all_goals try simp only [sheight_node]
        all_goals omega
  · split
    · rename_i hb1 hb2
      rcases r with _ | ⟨rl, rk, rn, rd, rh, rr⟩
      · exfalso
        simp only [sheight] at hb2
        omega
      · obtain ⟨Hrl, Hrr, hrh⟩ := HR
        obtain ⟨Brl, Brr, brr1, brr2⟩ := BR
        simp only [sheight_node] at hb1 hb2 hd1 hd2 ⊢
        split
        · rename_i hbr
          simp only [bfac_node] at hbr
          rcases rl with _ | ⟨rll, rlk, rln, rld, rlh, rlr⟩
          · exfalso
            simp only [sheight] at hbr hrh
            omega
          · obtain ⟨Hrll, Hrlr, hrlh⟩ := Hrl
            obtain ⟨Brll, Brlr, brl1, brl2⟩ := Brl
            simp only [sheight_node] at hbr hrh brr1 brr2
            simp only [rotateRight, rotateLeft, sheight_node]
            refine ⟨⟨⟨HL, Hrll, ?_⟩, ⟨Hrlr, Hrr, ?_⟩, ?_⟩,
              ⟨⟨BL, Brll, ?_, ?_⟩, ⟨Brlr, Brr, ?_, ?_⟩, ?_, ?_⟩, ?_, ?_, ?_⟩
            all_goals try simp only [sheight_node]
            all_goals omega
        · rename_i hbr
          simp only [bfac_node] at hbr
          try simp only [sheight_node] at hrh brr1 brr2
          simp only [rotateLeft, sheight_node]
          refine ⟨⟨⟨HL, Hrl, ?_⟩, Hrr, ?_⟩,
            ⟨⟨BL, Brl, ?_, ?_⟩, Brr, ?_, ?_⟩, ?_, ?_, ?_⟩
          all_goals try simp only [sheight_node]
          all_goals omega
    · rename_i hb1 hb2
      refine ⟨⟨HL, HR, rfl⟩, ⟨BL, BR, ?_, ?_⟩, ?_, ?_, Or.inr (Or.inr ?_)⟩
      all_goals try simp only [sheight_node]
      all_goals omega

theorem sheight_leaf : sheight .leaf = 0 := rfl

theorem insert_spec (k : Int) (nm : String) (d : PyData) :
    ∀ t, Hok t → BalS t →
      Hok (insert k nm d t) ∧ BalS (insert k nm d t) ∧
      sheight t ≤ sheight (insert k nm d t) ∧
      sheight (insert k nm d t) ≤ sheight t + 1
  | .leaf, _, _ => by
      simp only [insert, sheight_node, sheight_leaf]
      exact ⟨⟨trivial, trivial, rfl⟩, ⟨trivial, trivial, by omega, by omega⟩,
        by omega, by omega⟩
  | .node l k0 n0 d0 h0 r, ⟨Hl, Hr, hh⟩, ⟨Bl, Br, b1, b2⟩ => by
      simp only [insert]
      split
      · obtain ⟨H1, B1, s1, s2⟩ := insert_spec k nm d l Hl Bl
        obtain ⟨Q1, Q2, Q3, Q4, Q5⟩ :=
          @rebalance_spec (insert k nm d l) r k0 n0 d0 h0
            H1 Hr B1 Br (by omega) (by omega)
        refine ⟨Q1, Q2, ?_, ?_⟩ <;> (simp only [sheight_node]; omega)
      · split
        · obtain ⟨H1, B1, s1, s2⟩ := insert_spec k nm d r Hr Br
          obtain ⟨Q1, Q2, Q3, Q4, Q5⟩ :=
            @rebalance_spec l (insert k nm d r) k0 n0 d0 h0
              Hl H1 Bl B1 (by omega) (by omega)
          refine ⟨Q1, Q2, ?_, ?_⟩ <;> (simp only [sheight_node]; omega)
        · refine ⟨⟨Hl, Hr, hh⟩, ⟨Bl, Br, b1, b2⟩, ?_, ?_⟩ <;>
            (simp only [sheight_node]; omega)

theorem remove_spec (k : Int) :
    ∀ t, Hok t → BalS t →
      Hok (remove k t) ∧ BalS (remove k t) ∧
      sheight (remove k t) ≤ sheight t ∧
      sheight t ≤ sheight (remove k t) + 1
  | .leaf, _, _ => by
      rw [remove.eq_def]
      dsimp only
      exact ⟨trivial, trivial, le_refl _, by omega⟩
  | .node l k0 n0 d0 h0 r, ⟨Hl, Hr, hh⟩, ⟨Bl, Br, b1, b2⟩ => by
      rw [remove.eq_def]
      dsimp only
      rcases lt_trichotomy k k0 with h1 | h1 | h1
      · rw [if_pos h1]
        obtain ⟨H1, B1, s1, s2⟩ := remove_spec k l Hl Bl
        obtain ⟨Q1, Q2, Q3, Q4, Q5⟩ :=
          @rebalance_spec (remove k l) r k0 n0 d0 h0
            H1 Hr B1 Br (by omega) (by omega)
        refine ⟨Q1, Q2, ?_, ?_⟩ <;> (simp only [sheight_node]; omega)
      · rw [if_neg (by omega : ¬ k < k0), if_neg (by omega : ¬ k0 < k)]
        match l, r, Hl, Hr, Bl, Br, hh, b1, b2 with
        | .leaf, r, _, Hr, _, Br, hh, b1, b2 =>
            refine ⟨Hr, Br, ?_, ?_⟩ <;>
              (simp only [sheight_node, sheight_leaf] at hh b1 b2 ⊢; omega)
        | .node a b c dd e f, .leaf, Hl, _, Bl, _, hh, b1, b2 =>
            refine ⟨Hl, Bl, ?_, ?_⟩ <;>
              (simp only [sheight_node, sheight_leaf] at hh b1 b2 ⊢; omega)
        | .node a b c dd e f, .node a2 b2 c2 d2 e2 f2, Hl, Hr, Bl, Br, hh, hb1, hb2 =>
            obtain ⟨H1, B1, s1, s2⟩ :=
              remove_spec (minNode (.node a2 b2 c2 d2 e2 f2)).1
                (.node a2 b2 c2 d2 e2 f2) Hr Br
            obtain ⟨Q1, Q2, Q3, Q4, Q5⟩ :=
              @rebalance_spec (.node a b c dd e f)
                (remove (minNode (.node a2 b2 c2 d2 e2 f2)).1
                  (.node a2 b2 c2 d2 e2 f2))
                (minNode (.node a2 b2 c2 d2 e2 f2)).1
                (minNode (.node a2 b2 c2 d2 e2 f2)).2.1
                (minNode (.node a2 b2 c2 d2 e2 f2)).2.2 h0
                Hl H1 Bl B1 (by omega) (by omega)
            try simp only [sheight_node] at hh
            try simp only [sheight_node] at hb1
            try simp only [sheight_node] at hb2
            try simp only [sheight_node] at s1
            try simp only [sheight_node] at s2
            try simp only [sheight_node] at Q3
            try simp only [sheight_node] at Q4
            try simp only [sheight_node] at Q5
            refine ⟨Q1, Q2, ?_, ?_⟩ <;> (simp only [sheight_node]; omega)
      · rw [if_neg (by omega : ¬ k < k0), if_pos h1]
        obtain ⟨H1, B1, s1, s2⟩ := remove_spec k r Hr Br
        obtain ⟨Q1, Q2, Q3, Q4, Q5⟩ :=
          @rebalance_spec l (remove k r) k0 n0 d0 h0
            Hl H1 Bl B1 (by omega) (by omega)
        refine ⟨Q1, Q2, ?_, ?_⟩ <;> (simp only [sheight_node]; omega)

end AVL

/-! ### Balance invariant under arbitrary operation sequences -/

theorem wf_runA : ∀ (ops : List Op) (t : AVL), AVL.Hok t → AVL.BalS t →
    AVL.Hok (runA ops t) ∧ AVL.BalS (runA ops t)
  | [], _, h1, h2 => ⟨h1, h2⟩
  | .ins k nm d :: ops, t, h1, h2 =>
      have hs := AVL.insert_spec k nm d t h1 h2
      wf_runA ops _ hs.1 hs.2.1
  | .rem k :: ops, t, h1, h2 =>
      have hs := AVL.remove_spec k t h1 h2
      wf_runA ops _ hs.1 hs.2.1

/-- C1: for every sequence of insert and remove operations applied to an
initially empty AVL tree, immediately after each operation returns every node
satisfies `|height(left) − height(right)| ≤ 1`, where `height(empty) = 0` and
`height(node) = 1 + max` (any intermediate tree is `runA` of a prefix of the
sequence, so the statement over all sequences covers every such moment). -/
theorem claim_C1_avl_balance_invariant (ops : List Op) :
    AVL.Balanced (runA ops AVL.leaf) :=
  have h := wf_runA ops .leaf trivial trivial
  AVL.balanced_of_balS h.1 h.2

/-! ### Heap and auxiliary lemmas for Dijkstra -/

namespace Graph

theorem hpush_length (x : ℚ × Nat) :
    ∀ l, (hpush x l).length = l.length + 1
  | [] => rfl
  | y :: ys => by
      simp only [hpush]
      split
      · simp [List.length_cons]
      · simp [List.length_cons, hpush_length x ys]

theorem mem_hpush (z x : ℚ × Nat) :
    ∀ l, z ∈ hpush x l ↔ z = x ∨ z ∈ l
  | [] => by simp [hpush]
  | y :: ys => by
      simp only [hpush]
      split
      · simp only [List.mem_cons]
        try tauto
      · rw [List.mem_cons, mem_hpush z x ys, List.mem_cons]
        tauto

theorem entryLe_le {x y : ℚ × Nat} (h : entryLe x y = true) : x.1 ≤ y.1 := by
  simp only [entryLe, Bool.or_eq_true, Bool.and_eq_true, decide_eq_true_eq] at h
  rcases h with h | ⟨h, _⟩
  · exact le_of_lt h
  · exact le_of_eq h

theorem entryLe_ge {x y : ℚ × Nat} (h : entryLe x y = false) : y.1 ≤ x.1 := by
  simp only [entryLe, Bool.or_eq_false_iff, Bool.and_eq_false_iff,
    decide_eq_false_iff_not] at h
  exact le_of_not_lt h.1

theorem pairwise_le_hpush (x : ℚ × Nat) :
    ∀ l, l.Pairwise (fun a b => a.1 ≤ b.1) →
      (hpush x l).Pairwise (fun a b => a.1 ≤ b.1)
  | [], _ => by simp [hpush]
  | y :: ys, h => by
      rw [List.pairwise_cons] at h
      obtain ⟨hy, hys⟩ := h
      simp only [hpush]
      split
      · rename_i hle
        have hxy := entryLe_le hle
        rw [List.pairwise_cons]
        refine ⟨?_, List.Pairwise.cons hy hys⟩
        intro z hz
        rcases List.mem_cons.1 hz with h | h
        · exact h ▸ hxy
        · exact le_trans hxy (hy z h)
      · rename_i hle
        have hyx := entryLe_ge (Bool.not_eq_true _ ▸ hle : entryLe x y = false)
        rw [List.pairwise_cons]
        refine ⟨?_, pairwise_le_hpush x ys hys⟩
        intro z hz
        rcases (mem_hpush z x ys).1 hz with h | h
        · exact h ▸ hyx
        · exact hy z h

theorem pairwise_hpush_of {R : (ℚ × Nat) → (ℚ × Nat) → Prop} (x : ℚ × Nat) :
    ∀ l, (∀ y ∈ l, R x y ∧ R y x) → l.Pairwise R → (hpush x l).Pairwise R
  | [], _, _ => by simp [hpush]
  | y :: ys, hx, h => by
      rw [List.pairwise_cons] at h
      obtain ⟨hy, hys⟩ := h
      simp only [hpush]
      split
      · rw [List.pairwise_cons]
        refine ⟨?_, List.Pairwise.cons hy hys⟩
        intro z hz
        exact (hx z hz).1
      · rw [List.pairwise_cons]
        refine ⟨?_, pairwise_hpush_of x ys
          (fun z hz => hx z (List.mem_cons_of_mem y hz)) hys⟩
        intro z hz
        rcases (mem_hpush z x ys).1 hz with h | h
        · exact h ▸ (hx y (List.mem_cons_self y ys)).2
        · exact hy z h

theorem findAdj_nonneg (u : Nat) :
    ∀ adj, (∀ e ∈ adj, ∀ p ∈ e.2, (0 : ℚ) ≤ p.2) →
      ∀ p ∈ findAdj u adj, (0 : ℚ) ≤ p.2
  | [], _, p, hp => absurd hp (List.not_mem_nil p)
  | e :: es, h, p, hp => by
      simp only [findAdj] at hp
      split at hp
      · exact h e (List.mem_cons_self e es) p hp
      · exact findAdj_nonneg u es (fun x hx => h x (List.mem_cons_of_mem e hx)) p hp

theorem nonneg_adjOf {g : Graph} (hNN : WNonneg g) (u : Nat) :
    ∀ p ∈ adjOf g u, 0 ≤ p.2 := by
  intro p hp
  exact findAdj_nonneg u g.adj hNN p hp

theorem findAdj_target_mem (u : Nat) :
    ∀ adj (p : Nat × ℚ), p ∈ findAdj u adj →
      p.1 ∈ (adj.map fun e => e.2.map fun q => q.1).flatten
  | [], p, hp => absurd hp (List.not_mem_nil p)
  | e :: es, p, hp => by
      simp only [findAdj] at hp
      simp only [List.map_cons, List.flatten_cons, List.mem_append]
      split at hp
      · exact Or.inl (List.mem_map.2 ⟨p, hp, rfl⟩)
      · exact Or.inr (findAdj_target_mem u es p hp)

theorem target_mem_finVerts {g : Graph} (source x : Nat) (p : Nat × ℚ)
    (hp : p ∈ adjOf g x) : p.1 ∈ finVerts g source := by
  unfold finVerts
  rw [List.mem_toFinset, List.mem_cons]
  exact Or.inr (findAdj_target_mem x g.adj p hp)

theorem settledB_iff (s : DState) (x : Nat) :
    settledB s x = true ↔ Settled s x := by
  unfold settledB Settled
  rcases s.dist x with _ | q
  · simp
  · simp only [List.all_eq_true, Bool.and_eq_true, Bool.or_eq_true,
      Bool.not_eq_eq_eq_not, Bool.not_true, decide_eq_true_eq,
      decide_eq_false_iff_not]
    constructor
    · intro h
      refine ⟨fun p hp => (h p hp).1, fun p hp hpx => ?_⟩
      rcases (h p hp).2 with h2 | h2
      · exact absurd hpx h2
      · exact h2
    · intro h
      intro p hp
      refine ⟨h.1 p hp, ?_⟩
      by_cases hpx : p.2 = x
      · exact Or.inr (h.2 p hp hpx)
      · exact Or.inl hpx

end Graph

namespace Graph

theorem relaxEdges_spec (g : Graph) (source u : Nat) (du : ℚ)
    (hNNu : ∀ p ∈ adjOf g u, (0 : ℚ) ≤ p.2) :
    ∀ (es : List (Nat × ℚ)) (s : DState),
      (∀ p ∈ es, p ∈ adjOf g u) →
      s.dist u = some du →
      s.dist source = some 0 →
      (∀ v q, s.dist v = some q → 0 ≤ q) →
      (∀ p ∈ s.heap, ∃ dx, s.dist p.2 = some dx ∧ dx ≤ p.1) →
      s.heap.Pairwise (fun a b => a.1 ≤ b.1) →
      s.heap.Pairwise (fun a b => a.2 = b.2 → a.1 ≠ b.1) →
      (∀ p ∈ s.heap, du ≤ p.1) →
      (∀ p ∈ s.heap, p.2 = u → du < p.1) →
      (∀ x, ∀ p ∈ adjOf g x, Relaxed s x p ∨ Fresh s x ∨ (x = u ∧ p ∈ es)) →
      (∀ p ∈ s.heap, p.2 ∈ finVerts g source) →
      (relaxEdges u es s).dist u = some du ∧
      (relaxEdges u es s).dist source = some 0 ∧
      (∀ v q, (relaxEdges u es s).dist v = some q → 0 ≤ q) ∧
      (∀ p ∈ (relaxEdges u es s).heap,
        ∃ dx, (relaxEdges u es s).dist p.2 = some dx ∧ dx ≤ p.1) ∧
      (relaxEdges u es s).heap.Pairwise (fun a b => a.1 ≤ b.1) ∧
      (relaxEdges u es s).heap.Pairwise (fun a b => a.2 = b.2 → a.1 ≠ b.1) ∧
      (∀ p ∈ (relaxEdges u es s).heap, du ≤ p.1) ∧
      (∀ p ∈ (relaxEdges u es s).heap, p.2 = u → du < p.1) ∧
      (∀ x, ∀ p ∈ adjOf g x,
        Relaxed (relaxEdges u es s) x p ∨ Fresh (relaxEdges u es s) x) ∧
      (∀ p ∈ (relaxEdges u es s).heap, p.2 ∈ finVerts g source) ∧
      (relaxEdges u es s).heap.length ≤ s.heap.length + es.length ∧
      (∀ x, Guarded du s x →
        (relaxEdges u es s).dist x = s.dist x ∧ Guarded du (relaxEdges u es s) x)
  | [], s, hes, hdu, hsrc, hnn, hJ4, hJ5, hJ6, hJ7, hJ8, hJ9, hJ10 => by
      refine ⟨hdu, hsrc, hnn, hJ4, hJ5, hJ6, hJ7, hJ8, ?_, hJ10,
        by simp only [relaxEdges, List.length_nil]; omega,
        fun x hx => ⟨rfl, hx⟩⟩
      intro x p hp
      rcases hJ9 x p hp with h | h | ⟨_, h⟩
      · exact Or.inl h
      · exact Or.inr h
      · exact absurd h (List.not_mem_nil p)
  | (v, w) :: es, s, hes, hdu, hsrc, hnn, hJ4, hJ5, hJ6, hJ7, hJ8, hJ9, hJ10 => by
      have hw : (0 : ℚ) ≤ w := hNNu (v, w) (hes (v, w) (List.mem_cons_self _ _))
      have hdu0 : (0 : ℚ) ≤ du := hnn u du hdu
      simp only [relaxEdges, hdu]
      split
      · rename_i hlt
        have huv : u ≠ v := by
          intro h
          rw [← h, hdu] at hlt
          simp only [ltOpt, decide_eq_true_eq] at hlt
          linarith
        have hsv : source ≠ v := by
          intro h
          rw [← h, hsrc] at hlt
          simp only [ltOpt, decide_eq_true_eq] at hlt
          linarith
        have haltlt : ∀ dv, s.dist v = some dv → du + w < dv := by
          intro dv hdv
          rw [hdv] at hlt
          simpa only [ltOpt, decide_eq_true_eq] using hlt
        have hdu1 : (if u = v then some (du + w) else s.dist u) = some du := by
          rw [if_neg huv, hdu]
        have hsrc1 : (if source = v then some (du + w) else s.dist source) = some 0 := by
          rw [if_neg hsv, hsrc]
        obtain ⟨C1, C2, C3, C4, C5, C6, C7, C8, C9, C10, C11, C12⟩ :=
          relaxEdges_spec g source u du hNNu es
            { dist := fun x => if x = v then some (du + w) else s.dist x
              prev := fun x => if x = v then some u else s.prev x
              heap := hpush (du + w, v) s.heap }
            (fun p hp => hes p (List.mem_cons_of_mem _ hp))
            hdu1 hsrc1
            (by
              intro x q hq
              dsimp only at hq
              split at hq
              · cases hq
                linarith
              · exact hnn x q hq)
            (by
              intro p hp
              dsimp only at hp ⊢
              rcases (mem_hpush p _ _).1 hp with h | h
              · subst h
                exact ⟨du + w, by rw [if_pos rfl], le_refl _⟩
              · obtain ⟨dx, hdx, hdxle⟩ := hJ4 p h
                by_cases hpv : p.2 = v
                · rw [if_pos hpv]
                  rw [hpv] at hdx
                  have := haltlt dx hdx
                  exact ⟨du + w, rfl, by linarith⟩
                · rw [if_neg hpv]
                  exact ⟨dx, hdx, hdxle⟩)
            (pairwise_le_hpush _ _ hJ5)
            (by
              refine pairwise_hpush_of _ _ ?_ hJ6
              intro y hy
              obtain ⟨dx, hdx, hdxle⟩ := hJ4 y hy
              constructor
              · intro h2
                dsimp only at h2
                rw [← h2] at hdx
                have := haltlt dx hdx
                intro heq
                dsimp only at heq
                linarith
              · intro h2
                dsimp only at h2
                rw [h2] at hdx
                have := haltlt dx hdx
                intro heq
                dsimp only at heq
                linarith)
            (by
              intro p hp
              dsimp only at hp
              rcases (mem_hpush p _ _).1 hp with h | h
              · subst h
                dsimp only
                linarith
              · exact hJ7 p h)
            (by
              intro p hp hpu
              dsimp only at hp
              rcases (mem_hpush p _ _).1 hp with h | h
              · subst h
                exact absurd hpu.symm huv
              · exact hJ8 p h hpu)
            (by
              intro x p hp
              rcases hJ9 x p hp with h | h | ⟨hxu, hpe⟩
              · by_cases hxv : x = v
                · subst hxv
                  refine Or.inr (Or.inl ⟨du + w, ?_, ?_⟩)
                  · exact (mem_hpush _ _ _).2 (Or.inl rfl)
                  · dsimp only
                    rw [if_pos rfl]
                · refine Or.inl ?_
                  intro dx hdx
                  dsimp only at hdx ⊢
                  rw [if_neg hxv] at hdx
                  obtain ⟨dv, hdv, hdvle⟩ := h dx hdx
                  by_cases hp1 : p.1 = v
                  · rw [if_pos hp1]
                    rw [hp1] at hdv
                    have := haltlt dv hdv
                    exact ⟨du + w, rfl, by linarith⟩
                  · rw [if_neg hp1]
                    exact ⟨dv, hdv, hdvle⟩
              · obtain ⟨dx, hmem, hdist⟩ := h
                by_cases hxv : x = v
                · subst hxv
                  refine Or.inr (Or.inl ⟨du + w, (mem_hpush _ _ _).2 (Or.inl rfl), ?_⟩)
                  dsimp only
                  rw [if_pos rfl]
                · refine Or.inr (Or.inl ⟨dx, (mem_hpush _ _ _).2 (Or.inr hmem), ?_⟩)
                  dsimp only
                  rw [if_neg hxv]
                  exact hdist
              · rcases List.mem_cons.1 hpe with h2 | h2
                · subst hxu
                  subst h2
                  refine Or.inl ?_
                  intro dx hdx
                  dsimp only at hdx ⊢
                  rw [hdu1] at hdx
                  cases hdx
                  exact ⟨du + w, by rw [if_pos rfl], le_refl _⟩
                · exact Or.inr (Or.inr ⟨hxu, h2⟩)
              )
            (by
              intro p hp
              dsimp only at hp
              rcases (mem_hpush p _ _).1 hp with h | h
              · subst h
                exact target_mem_finVerts source u (v, w)
                  (hes (v, w) (List.mem_cons_self _ _))
              · exact hJ10 p h)
        refine ⟨C1, C2, C3, C4, C5, C6, C7, C8, C9, C10, ?_, ?_⟩
        · have hl := hpush_length (du + w, v) s.heap
          dsimp only at C11
          rw [hl] at C11
          simpa [List.length_cons] using le_trans C11 (by omega)
        · intro x hx
          obtain ⟨q, hq, hqdu, hqall, hqown⟩ := hx
          have hxv : x ≠ v := by
            intro h
            rw [h] at hq
            have := haltlt q hq
            linarith
          have hg1 : Guarded du
              { dist := fun x => if x = v then some (du + w) else s.dist x
                prev := fun x => if x = v then some u else s.prev x
                heap := hpush (du + w, v) s.heap } x := by
            refine ⟨q, ?_, hqdu, ?_, ?_⟩
            · dsimp only
              rw [if_neg hxv]
              exact hq
            · intro p hp
              dsimp only at hp
              rcases (mem_hpush p _ _).1 hp with h | h
              · subst h
                dsimp only
                linarith
              · exact hqall p h
            · intro p hp hpx
              dsimp only at hp
              rcases (mem_hpush p _ _).1 hp with h | h
              · subst h
                exact absurd hpx.symm hxv
              · exact hqown p h hpx
          obtain ⟨he, hg2⟩ := C12 x hg1
          refine ⟨?_, hg2⟩
          rw [he]
          dsimp only
          rw [if_neg hxv]
      · rename_i hlt
        have hlt2 : ltOpt (du + w) (s.dist v) = false := by
          rwa [Bool.not_eq_true] at hlt
        have hrel : Relaxed s u (v, w) := by
          intro dx hdx
          rw [hdu] at hdx
          cases hdx
          rcases hv : s.dist v with _ | dv
          · rw [hv] at hlt2
            simp [ltOpt] at hlt2
          · rw [hv] at hlt2
            simp only [ltOpt, decide_eq_false_iff_not] at hlt2
            exact ⟨dv, rfl, by linarith⟩
        obtain ⟨C1, C2, C3, C4, C5, C6, C7, C8, C9, C10, C11, C12⟩ :=
          relaxEdges_spec g source u du hNNu es s
            (fun p hp => hes p (List.mem_cons_of_mem _ hp))
            hdu hsrc hnn hJ4 hJ5 hJ6 hJ7 hJ8
            (by
              intro x p hp
              rcases hJ9 x p hp with h | h | ⟨hxu, hpe⟩
              · exact Or.inl h
              · exact Or.inr (Or.inl h)
              · rcases List.mem_cons.1 hpe with h2 | h2
                · subst hxu
                  subst h2
                  exact Or.inl hrel
                · exact Or.inr (Or.inr ⟨hxu, h2⟩))
            hJ10
        exact ⟨C1, C2, C3, C4, C5, C6, C7, C8, C9, C10, by
          simpa [List.length_cons] using le_trans C11 (by omega), C12⟩

end Graph

namespace Graph

theorem settledB_false_iff (s : DState) (x : Nat) :
    settledB s x = false ↔ ¬ Settled s x := by
  rw [← settledB_iff]
  cases settledB s x <;> simp

theorem dloop_spec (g : Graph) (source : Nat) (hNN : WNonneg g) :
    ∀ (fuel : Nat) (s : DState), DInv g source s → phi g source s ≤ fuel →
      (dloop g fuel s).heap = [] ∧ DInv g source (dloop g fuel s)
  | 0, s, hInv, hphi => by
      have hlen : s.heap.length = 0 := by
        have : s.heap.length ≤ phi g source s := Nat.le_add_right _ _
        omega
      exact ⟨List.length_eq_zero.1 hlen, hInv⟩
  | fuel + 1, s, hInv, hphi => by
      match hh : s.heap with
      | [] =>
          simp only [dloop, hh]
          exact ⟨trivial, hInv⟩
      | (d, u) :: rest =>
          obtain ⟨I1, I2, I3, I4, I5, I6, I7⟩ := hInv
          obtain ⟨du, hdu0, hdule0⟩ := I3 (d, u) (by rw [hh]; exact List.mem_cons_self _ _)
          have hdu : s.dist u = some du := hdu0
          have hdule : du ≤ d := hdule0
          have hI4r := (List.pairwise_cons.1 (hh ▸ I4))
          have hI5r := (List.pairwise_cons.1 (hh ▸ I5))
          simp only [dloop, hh]
          by_cases hst : staleAt d (s.dist u) = true
          · rw [if_pos hst]
            rw [hdu] at hst
            simp only [staleAt, decide_eq_true_eq] at hst
            have hInv2 : DInv g source { s with heap := rest } := by
              refine ⟨I1, I2, ?_, hI4r.2, hI5r.2, ?_, ?_⟩
              · intro p hp
                exact I3 p (by rw [hh]; exact List.mem_cons_of_mem _ hp)
              · intro x p hp
                rcases I6 x p hp with h | h
                · exact Or.inl h
                · obtain ⟨q, hmem, hq⟩ := h
                  rw [hh] at hmem
                  rcases List.mem_cons.1 hmem with h2 | h2
                  · exfalso
                    have hxu : x = u := congrArg Prod.snd h2
                    have hqd : q = d := congrArg Prod.fst h2
                    rw [hxu, hdu] at hq
                    have := Option.some.inj hq
                    linarith
                  · exact Or.inr ⟨q, h2, hq⟩
              · intro p hp
                exact I7 p (by rw [hh]; exact List.mem_cons_of_mem _ hp)
            have hmono : ∀ x, Settled s x → Settled { s with heap := rest } x := by
              intro x hx
              unfold Settled at hx ⊢
              rcases hd : s.dist x with _ | q
              · rw [hd] at hx
                exact hx
              · rw [hd] at hx
                refine ⟨fun p hp => hx.1 p (by rw [hh]; exact List.mem_cons_of_mem _ hp),
                  fun p hp hpx => hx.2 p (by rw [hh]; exact List.mem_cons_of_mem _ hp) hpx⟩
            have hphi2 : phi g source { s with heap := rest } < phi g source s := by
              unfold phi
              have hsub : ((finVerts g source).filter
                  fun x => settledB { s with heap := rest } x = false) ⊆
                  ((finVerts g source).filter fun x => settledB s x = false) := by
                intro x hx
                rw [Finset.mem_filter] at hx ⊢
                refine ⟨hx.1, ?_⟩
                rw [settledB_false_iff] at hx ⊢
                exact fun hc => hx.2 (hmono x hc)
              have hsum : ((finVerts g source).filter
                    fun x => settledB { s with heap := rest } x = false).sum
                    (fun u => (adjOf g u).length) ≤
                  ((finVerts g source).filter fun x => settledB s x = false).sum
                    (fun u => (adjOf g u).length) :=
                Finset.sum_le_sum_of_subset hsub
              have hrl : ({ s with heap := rest } : DState).heap.length = rest.length := rfl
              have hlen : s.heap.length = rest.length + 1 := by
                rw [hh]; simp [List.length_cons]
              omega
            have := dloop_spec g source hNN fuel { s with heap := rest } hInv2 (by omega)
            exact this
          · rw [if_neg hst]
            rw [hdu] at hst
            simp only [staleAt, decide_eq_true_eq] at hst
            have hde : du = d := le_antisymm hdule (le_of_not_lt hst)
            subst hde
            obtain ⟨C1, C2, C3, C4, C5, C6, C7, C8, C9, C10, C11, C12⟩ :=
              relaxEdges_spec g source u du (nonneg_adjOf hNN u) (adjOf g u)
                { s with heap := rest }
                (fun p hp => hp) hdu I1 I2
                (fun p hp => I3 p (by rw [hh]; exact List.mem_cons_of_mem _ hp))
                hI4r.2 hI5r.2
                (fun p hp => hI4r.1 p hp)
                (by
                  intro p hp hpu
                  have hne := hI5r.1 p hp (by rw [hpu])
                  have hle := hI4r.1 p hp
                  exact lt_of_le_of_ne hle hne)
                (by
                  intro x p hp
                  rcases I6 x p hp with h | h
                  · exact Or.inl h
                  · obtain ⟨q, hmem, hq⟩ := h
                    rw [hh] at hmem
                    rcases List.mem_cons.1 hmem with h2 | h2
                    · have hxu : x = u := congrArg Prod.snd h2
                      exact Or.inr (Or.inr ⟨hxu, hxu ▸ hp⟩)
                    · exact Or.inr (Or.inl ⟨q, h2, hq⟩))
                (fun p hp => I7 p (by rw [hh]; exact List.mem_cons_of_mem _ hp))
            have hInv2 : DInv g source
                (relaxEdges u (adjOf g u) { s with heap := rest }) :=
              ⟨C2, C3, C4, C5, C6, C9, C10⟩
            have hmono : ∀ x, Settled s x →
                Settled (relaxEdges u (adjOf g u) { s with heap := rest }) x := by
              intro x hx
              unfold Settled at hx
              rcases hd2 : s.dist x with _ | q
              · rw [hd2] at hx
                exact hx.elim
              · rw [hd2] at hx
                have hguard : Guarded du { s with heap := rest } x := by
                  refine ⟨q, hd2, ?_, ?_, ?_⟩
                  · have := hx.1 (du, u) (by rw [hh]; exact List.mem_cons_self _ _)
                    exact this
                  · exact fun p hp => hx.1 p (by rw [hh]; exact List.mem_cons_of_mem _ hp)
                  · exact fun p hp hpx =>
                      hx.2 p (by rw [hh]; exact List.mem_cons_of_mem _ hp) hpx
                obtain ⟨_, q2, hq2, _, hall, hown⟩ := C12 x hguard
                unfold Settled
                rw [hq2]
                exact ⟨hall, hown⟩
            have hsetu : Settled (relaxEdges u (adjOf g u) { s with heap := rest }) u := by
              unfold Settled
              rw [C1]
              exact ⟨C7, C8⟩
            have hnotsetu : ¬ Settled s u := by
              unfold Settled
              rw [hdu]
              intro hc
              have := hc.2 (du, u) (by rw [hh]; exact List.mem_cons_self _ _) rfl
              exact lt_irrefl du this
            have huFIN : u ∈ finVerts g source :=
              I7 (du, u) (by rw [hh]; exact List.mem_cons_self _ _)
            have hphi2 : phi g source (relaxEdges u (adjOf g u) { s with heap := rest })
                < phi g source s := by
              unfold phi
              have hBmem : u ∈ (finVerts g source).filter
                  fun x => settledB s x = false := by
                rw [Finset.mem_filter, settledB_false_iff]
                exact ⟨huFIN, hnotsetu⟩
              have hsub : ((finVerts g source).filter fun x =>
                  settledB (relaxEdges u (adjOf g u) { s with heap := rest }) x = false) ⊆
                  (((finVerts g source).filter fun x => settledB s x = false).erase u) := by
                intro x hx
                rw [Finset.mem_filter, settledB_false_iff] at hx
                rw [Finset.mem_erase, Finset.mem_filter, settledB_false_iff]
                refine ⟨?_, hx.1, fun hc => hx.2 (hmono x hc)⟩
                intro hc
                rw [hc] at hx
                exact hx.2 hsetu
              have hsum : ((finVerts g source).filter fun x =>
                    settledB (relaxEdges u (adjOf g u) { s with heap := rest }) x
                      = false).sum (fun x => (adjOf g x).length) ≤
                  ((((finVerts g source).filter fun x => settledB s x = false)).erase
                    u).sum (fun x => (adjOf g x).length) :=
                Finset.sum_le_sum_of_subset hsub
              have hsplit : (adjOf g u).length +
                  ((((finVerts g source).filter fun x => settledB s x = false)).erase
                    u).sum (fun x => (adjOf g x).length) =
                  (((finVerts g source).filter fun x => settledB s x = false)).sum
                    (fun x => (adjOf g x).length) :=
                Finset.add_sum_erase _ (fun x => (adjOf g x).length) hBmem
              have hrl : ({ s with heap := rest } : DState).heap.length = rest.length := rfl
              have hlen : s.heap.length = rest.length + 1 := by
                rw [hh]; simp [List.length_cons]
              omega
            have := dloop_spec g source hNN fuel
              (relaxEdges u (adjOf g u) { s with heap := rest }) hInv2 (by omega)
            exact this

end Graph

/-- C9: on a graph with non-negative edge weights and a source known to the
graph, the `dist` map returned by `dijkstra(source)` assigns `0` to the
source, satisfies the relaxation inequality `dist[v] ≤ dist[u] + w` on every
edge `u→v` whose origin has a finite distance (`none` is infinity, for
unreachable vertices), and is non-negative everywhere it is finite. -/
theorem claim_C9_dijkstra_properties (g : Graph) (source : Nat)
    (hNN : Graph.WNonneg g) (hs : Graph.hasVertex source g.adj = true) :
    (Graph.dijkstra g source).1 source = some 0 ∧
    (∀ u, ∀ p ∈ Graph.adjOf g u, ∀ du, (Graph.dijkstra g source).1 u = some du →
      ∃ dv, (Graph.dijkstra g source).1 p.1 = some dv ∧ dv ≤ du + p.2) ∧
    (∀ v q, (Graph.dijkstra g source).1 v = some q → 0 ≤ q) := by
  have h0 : Graph.DInv g source (Graph.dinit source) := by
    refine ⟨by dsimp only [Graph.dinit]; rw [if_pos rfl], ?_, ?_, ?_, ?_, ?_, ?_⟩
    · intro v q hq
      dsimp only [Graph.dinit] at hq
      split at hq
      · cases hq
        exact le_refl 0
      · exact absurd hq (by simp)
    · intro p hp
      rcases List.mem_cons.1 hp with h | h
      · subst h
        exact ⟨0, by dsimp only [Graph.dinit]; rw [if_pos rfl], le_refl 0⟩
      · exact absurd h (List.not_mem_nil p)
    · exact List.pairwise_singleton _ _
    · exact List.pairwise_singleton _ _
    · intro x p hp
      by_cases hxs : x = source
      · subst hxs
        refine Or.inr ⟨0, List.mem_cons_self _ _, ?_⟩
        dsimp only [Graph.dinit]
        rw [if_pos rfl]
      · refine Or.inl ?_
        intro dx hdx
        dsimp only [Graph.dinit] at hdx
        rw [if_neg hxs] at hdx
        exact absurd hdx (by simp)
    · intro p hp
      rcases List.mem_cons.1 hp with h | h
      · subst h
        unfold Graph.finVerts
        rw [List.mem_toFinset]
        exact List.mem_cons_self _ _
      · exact absurd h (List.not_mem_nil p)
  have hphi0 : Graph.phi g source (Graph.dinit source) ≤ Graph.dijkstraFuel g source := by
    unfold Graph.phi Graph.dijkstraFuel
    have hsum : ((Graph.finVerts g source).filter fun u =>
          Graph.settledB (Graph.dinit source) u = false).sum
          (fun u => (Graph.adjOf g u).length) ≤
        (Graph.finVerts g source).sum (fun u => (Graph.adjOf g u).length) :=
      Finset.sum_le_sum_of_subset (Finset.filter_subset _ _)
    have hone : (Graph.dinit source).heap.length = 1 := rfl
    omega
  obtain ⟨hheap, hInv⟩ :=
    Graph.dloop_spec g source hNN (Graph.dijkstraFuel g source) _ h0 hphi0
  obtain ⟨I1, I2, I3, I4, I5, I6, I7⟩ := hInv
  have hfst : (Graph.dijkstra g source).1 =
      (Graph.dloop g (Graph.dijkstraFuel g source) (Graph.dinit source)).dist := by
    unfold Graph.dijkstra
    rw [if_pos hs]
  rw [hfst]
  refine ⟨I1, ?_, I2⟩
  intro u p hp du hdu
  rcases I6 u p hp with h | h
  · exact h du hdu
  · obtain ⟨q, hmem, _⟩ := h
    rw [hheap] at hmem
    exact absurd hmem (List.not_mem_nil _)

theorem claim_C9_witness :
    Graph.WNonneg dijkstraEx ∧ Graph.hasVertex 1 dijkstraEx.adj = true ∧
      (Graph.dijkstra dijkstraEx 1).1 1 = some 0 :=
  ⟨by unfold Graph.WNonneg; decide, by decide,
    (claim_C9_dijkstra_properties dijkstraEx 1
      (by unfold Graph.WNonneg; decide) (by decide)).1⟩

end Nav
